import Mathlib


/-!
# ZipCodes.cpp: the postal-code table

A shallow embedding of `ZipCodes.cpp`: the process-wide table
`static_ZipCodesMap`, the query `GetLatAndLon`, the loader `LoadZipCodes`
and `ReleaseZipCodes`.

Conventions of the embedding.

* Text is `List Char`; a C string is the part of a buffer before its first
  NUL byte.
* The global table is passed explicitly: every operation takes the table and
  returns the new one.
* A `double` is represented by its value, a rational number. The conversion
  of a text rounds the decimal that was read to binary64 (to nearest, ties to
  even, subnormal numbers included; a number too large gives the largest
  finite double, as the extraction of libstdc++ does). Infinities and NaN are
  never produced by the loader, and -0.0 and 0.0 are the one value 0.
* A store outside the destination array of `strcpy` is undefined behaviour in
  C++; the embedding reports it as a `Fault` and gives no table afterwards.
* The buffer `line` is read only as a C string, up to the NUL that `fgets`
  puts after the bytes it stored; the loops pass that C string along.
* The two `while` loops recurse on a bound (the length of the text that is
  left), which they never use up.
-/

namespace ZipCodes

/-! ## Values -/

/-- The value of a C++ double. Every double the loader produces is finite, so
its value is a rational number; nearestDouble is the rounding by which the
conversion from text makes a double of the decimal it has read. -/
abbrev Double := ℚ

/-- Modelled from the spec: the type LatLon is declared in ZipCodes.h, which is
not among the sources. The code builds it from two doubles, LatLon(0,0) and
LatLon{lat, lon}; the spec calls it a pair (latitude, longitude). -/
structure LatLon where
  lat : Double
  lon : Double
deriving DecidableEq

/-! ## The table: `std::map<int, LatLon>` -/

/-- The keys of a list of entries, in order. -/
def keysOf (es : List (Int × LatLon)) : List Int := es.map Prod.fst

/-- A std::map<int, LatLon>: its entries in ascending key order, every key
once. -/
structure ZipMap where
  entries : List (Int × LatLon)
  ordered : (keysOf entries).Pairwise (· < ·)
deriving DecidableEq

/-- The keys of the table. -/
def ZipMap.keys (m : ZipMap) : List Int := keysOf m.entries

/-- The search of map::find over the entries: the value of the entry whose key
is k, none standing for the end iterator. -/
def findEntry (k : Int) : List (Int × LatLon) → Option LatLon
  | [] => none
  | (k', v) :: rest => if k' = k then some v else findEntry k rest

/-- The entries after `map[k] = v`: the entry of k is overwritten when there
is one, and a new entry is put at its place in the key order otherwise. -/
def assignEntry (k : Int) (v : LatLon) : List (Int × LatLon) → List (Int × LatLon)
  | [] => [(k, v)]
  | (k', v') :: rest =>
    if k < k' then (k, v) :: (k', v') :: rest
    else if k = k' then (k, v) :: rest
    else (k', v') :: assignEntry k v rest

theorem keysOf_assignEntry (k : Int) (v : LatLon) (es : List (Int × LatLon)) (x : Int)
    (hx : x ∈ keysOf (assignEntry k v es)) : x = k ∨ x ∈ keysOf es := by
  induction es with
  | nil => simpa [assignEntry, keysOf] using hx
  | cons e rest ih =>
    obtain ⟨k', v'⟩ := e
    unfold assignEntry at hx
    split_ifs at hx with h1 h2
    · simp only [keysOf, List.map_cons, List.mem_cons] at hx ⊢
      tauto
    · simp only [keysOf, List.map_cons, List.mem_cons] at hx ⊢
      tauto
    · simp only [keysOf, List.map_cons, List.mem_cons] at hx ih ⊢
      rcases hx with hx | hx
      · exact Or.inr (Or.inl hx)
      · rcases ih hx with h | h
        · exact Or.inl h
        · exact Or.inr (Or.inr h)

theorem assignEntry_ordered (k : Int) (v : LatLon) (es : List (Int × LatLon))
    (h : (keysOf es).Pairwise (· < ·)) : (keysOf (assignEntry k v es)).Pairwise (· < ·) := by
  induction es with
  | nil => simp [assignEntry, keysOf]
  | cons e rest ih =>
    obtain ⟨k', v'⟩ := e
    have hk : ∀ x ∈ keysOf rest, k' < x := by
      simpa [keysOf] using (List.pairwise_cons.1 h).1
    have hrest : (keysOf rest).Pairwise (· < ·) := by
      simpa [keysOf] using (List.pairwise_cons.1 h).2
    unfold assignEntry
    split_ifs with h1 h2
    · have : keysOf ((k, v) :: (k', v') :: rest) = k :: keysOf ((k', v') :: rest) := rfl
      rw [this]
      refine List.pairwise_cons.2 ⟨?_, h⟩
      intro x hx
      have hx' : x = k' ∨ x ∈ keysOf rest := by simpa [keysOf] using hx
      rcases hx' with rfl | hx'
      · exact h1
      · exact lt_trans h1 (hk x hx')
    · subst h2
      have : keysOf ((k, v) :: rest) = k :: keysOf rest := rfl
      rw [this]
      exact List.pairwise_cons.2 ⟨hk, hrest⟩
    · have : keysOf ((k', v') :: assignEntry k v rest) = k' :: keysOf (assignEntry k v rest) := rfl
      rw [this]
      refine List.pairwise_cons.2 ⟨?_, ih hrest⟩
      intro x hx
      rcases keysOf_assignEntry k v rest x hx with rfl | hx'
      · omega
      · exact hk x hx'

/-- The map with no entry: the table at process start and after clear(). -/
def ZipMap.clear : ZipMap := ⟨[], List.Pairwise.nil⟩

/-- Whether the map has no entry: map::empty. -/
def ZipMap.empty (m : ZipMap) : Bool := m.entries.isEmpty

/-- The iterator map::find gives: the value found, or none for end(). -/
def ZipMap.find (m : ZipMap) (k : Int) : Option LatLon := findEntry k m.entries

/-- The table after `m[k] = v`. -/
def ZipMap.assign (m : ZipMap) (k : Int) (v : LatLon) : ZipMap :=
  ⟨assignEntry k v m.entries, assignEntry_ordered k v m.entries m.ordered⟩

/-! ## Query and release -/

/-- The function GetLatAndLon: the coordinate found under zipCode, or
LatLon(0,0) when find gives end(). The second component is the table after
the call. -/
def GetLatAndLon (zipCode : Int) (table : ZipMap) : LatLon × ZipMap :=
  match table.find zipCode with
  | some found => (found, table)
  | none => (⟨0, 0⟩, table)

/-- The coordinate GetLatAndLon returns. -/
def lookup (table : ZipMap) (zipCode : Int) : LatLon := (GetLatAndLon zipCode table).1

/-- The function ReleaseZipCodes: clears the table unless it is empty
already. -/
def ReleaseZipCodes (table : ZipMap) : ZipMap :=
  if !table.empty then ZipMap.clear else table

/-! ## The C library functions the loader calls -/

/-- The byte that ends a C string. -/
def NUL : Char := Char.ofNat 0

/-- The C string held in a buffer: its bytes before the first NUL. -/
def cstr (buf : List Char) : List Char := buf.takeWhile (· != NUL)

/-- The test isspace of the C locale: space, \t, \n, \v, \f, \r. -/
def isspace (c : Char) : Bool :=
  c == ' ' || c == '\t' || c == '\n' || c == Char.ofNat 11 || c == Char.ofNat 12 || c == '\r'

/-- The test isdigit: one of 0 to 9. -/
def isdigit (c : Char) : Bool := decide (48 ≤ c.toNat ∧ c.toNat ≤ 57)

/-- The number a run of decimal digits denotes. -/
def decimalValue (ds : List Char) : Nat :=
  ds.foldl (fun acc c => acc * 10 + (c.toNat - 48)) 0

/-- An optional sign at the head of a text: whether it is a minus, and the
text after it. -/
def takeSign : List Char → Bool × List Char
  | [] => (false, [])
  | c :: rest =>
    if c = '-' then (true, rest) else if c = '+' then (false, rest) else (false, c :: rest)

/-- The value of strtol(s, 0, 10): white space is skipped, then an optional
sign and the longest run of digits are read (0 when there is no digit); the
result is clamped to the range of a 64-bit long. -/
def strtol (s : List Char) : Int :=
  let signed := takeSign (s.dropWhile isspace)
  let magnitude : Int := decimalValue (signed.2.takeWhile isdigit)
  if signed.1 then max (-magnitude) (-(2 ^ 63)) else min magnitude (2 ^ 63 - 1)

/-- The conversion of a long to a 32-bit int. -/
def toInt32 (x : Int) : Int := (x + 2 ^ 31) % 2 ^ 32 - 2 ^ 31

/-- The function atoi, as the C library defines it: (int) strtol(s, 0, 10). -/
def atoi (s : List Char) : Int := toInt32 (strtol s)

/-- The number of binary digits of n (0 for 0), found by halving. The bound
is the first argument; with n itself as the bound it is never used up. -/
def bitLength : Nat → Nat → Nat
  | 0, _ => 0
  | fuel + 1, n => if n = 0 then 0 else bitLength fuel (n / 2) + 1

/-- The integer part of the binary logarithm of n / d, for positive n and d:
the difference of the digit counts, or one less. -/
def floorLog2 (n d : Nat) : Int :=
  let k : Int := (bitLength n n : Int) - (bitLength d d : Int)
  if d * 2 ^ k.toNat ≤ n * 2 ^ (-k).toNat then k else k - 1

/-- The integer nearest to n / d, the even one of the two when n / d lies
halfway between them. -/
def roundHalfEven (n d : Nat) : Nat :=
  let q := n / d
  let r := n % d
  if 2 * r < d then q else if d < 2 * r then q + 1 else if q % 2 = 0 then q else q + 1

/-- The largest finite double, (2^53 - 1) * 2^971: numeric_limits<double>::max(). -/
def maxDouble : Double := mkRat (((2 ^ 53 - 1) * 2 ^ 971 : Nat) : Int) 1

/-- The double that strtod gives for the number q: q rounded to binary64, to
nearest and ties to even. The result is m * 2^e with m the rounded quotient
of |q| by 2^e, where e makes the quotient lie between 2^52 and 2^53 or is
-1074, the exponent of the subnormal numbers. When the rounded value is 2^1024
or more strtod gives HUGE_VAL, for which the extraction of libstdc++ stores
the largest finite double. -/
def nearestDouble (q : ℚ) : Double :=
  if q.num = 0 then 0
  else
    let e : Int := max (floorLog2 q.num.natAbs q.den - 52) (-1074)
    let m : Nat := roundHalfEven (q.num.natAbs * 2 ^ (-e).toNat) (q.den * 2 ^ e.toNat)
    let magnitude : ℚ :=
      if 971 < e ∨ (e = 971 ∧ 2 ^ 53 ≤ m) then maxDouble
      else mkRat ((m * 2 ^ e.toNat : Nat) : Int) (2 ^ (-e).toNat)
    if q.num < 0 then -magnitude else magnitude

/-- The exponent part of a floating-point text: none when an exponent letter
is there without a digit after it (the conversion of the whole text then
fails), the exponent otherwise, 0 when the text has no exponent part. -/
def readExponent : List Char → Option Int
  | c :: rest =>
    if c == 'e' || c == 'E' then
      let signed := takeSign rest
      let ds := signed.2.takeWhile isdigit
      if ds.isEmpty then none
      else some (if signed.1 then -(decimalValue ds : Int) else (decimalValue ds : Int))
    else some 0
  | [] => some 0

/-- The part of a floating-point text from the decimal point on: the digits
after the point (none when the text does not start with a point) and the text
after them. -/
def readFraction : List Char → List Char × List Char
  | [] => ([], [])
  | c :: rest =>
    if c = '.' then (rest.takeWhile isdigit, rest.dropWhile isdigit) else ([], c :: rest)

/-- The extraction `stream >> doubleVal` from a stream holding s: white space
is skipped, then sign, digits, an optional point with digits and an optional
exponent are read. None when no number is found (no digit in the mantissa,
or an exponent letter without digits). The value is the decimal that was read,
rounded to a double. -/
def extractDouble (s : List Char) : Option Double :=
  let signed := takeSign (s.dropWhile isspace)
  let whole := signed.2.takeWhile isdigit
  let fraction := readFraction (signed.2.dropWhile isdigit)
  if whole.isEmpty && fraction.1.isEmpty then none
  else
    match readExponent fraction.2 with
    | none => none
    | some e =>
      let mantissa : Int := decimalValue (whole ++ fraction.1)
      let scale : Int := e - fraction.1.length
      some (nearestDouble
        (mkRat ((if signed.1 then -mantissa else mantissa) * (10 ^ scale.toNat : Nat))
          (10 ^ (-scale).toNat)))

/-- The function ConvertStringToDouble: doubleVal starts as 0, the text goes
into a stringstream and is extracted back; a failed extraction leaves 0. -/
def ConvertStringToDouble (stringVal : List Char) : Double :=
  (extractDouble stringVal).getD 0

/-- The bytes fgets stores from the stream when room is left for `room` of
them, and the stream after them: it stops after a newline, at the end of the
stream, or when the room is used up. -/
def fgetsRead : Nat → List Char → List Char × List Char
  | 0, stream => ([], stream)
  | _ + 1, [] => ([], [])
  | room + 1, c :: stream =>
    if c = '\n' then ([c], stream)
    else ((c :: (fgetsRead room stream).1), (fgetsRead room stream).2)

/-- The call fgets(buffer, size, stream): none for the null pointer (end of
the stream, nothing read), otherwise the bytes stored before the closing NUL
and the stream that is left. -/
def fgets (size : Nat) (stream : List Char) : Option (List Char × List Char) :=
  match stream with
  | [] => none
  | _ :: _ => some (fgetsRead (size - 1) stream)

/-- One call of strtok on the text that is left, with the one delimiter
`delim`: none for the null pointer (only delimiters are left), otherwise the
token and the text after the delimiter that ended it. Delimiters before the
token are skipped. -/
def strtok (delim : Char) (s : List Char) : Option (List Char × List Char) :=
  match s.dropWhile (· == delim) with
  | [] => none
  | c :: rest =>
    some ((c :: rest).takeWhile (· != delim), ((c :: rest).dropWhile (· != delim)).drop 1)

/-! ## The field buffer `char fields[6][32]` -/

/-- What a run of the loader can end in besides a result. The first two are
undefined behaviour of strcpy: a store past the end of the whole array
`fields`, or past the end of the row it was given but still inside the
array. `errorString` is sprintf writing past the 1024 bytes of errorString.
`fuel` is the loop bound of the embedding running out, which `LoadZipCodes`
never lets happen. -/
inductive Fault where
  | outsideArray (index length : Nat)
  | outsideRow (index length : Nat)
  | errorString (length : Nat)
  | fuel
deriving DecidableEq

/-- The result of a step that may fault. -/
inductive Run (α : Type) where
  | done (value : α)
  | fault (f : Fault)
deriving DecidableEq

/-- Sequencing of steps that may fault. -/
def Run.andThen {α β : Type} (r : Run α) (k : α → Run β) : Run β :=
  match r with
  | .done a => k a
  | .fault f => .fault f

/-- The rows of `fields`: 6 rows of 32 bytes. -/
abbrev Fields := List (List Char)

/-- The array after `char fields[6][32] = {0x0}`: every byte is NUL. -/
def zeroFields : Fields := List.replicate 6 (List.replicate 32 NUL)

/-- The C string at `fields[index]`. -/
def fieldAt (fields : Fields) (index : Nat) : List Char := cstr (fields.getD index [])

/-- The call strcpy(fields[index], field): the bytes of field and a NUL are
stored from the start of row `index`; the rest of the row keeps its bytes. A
store that leaves the row is undefined behaviour. -/
def strcpy (fields : Fields) (index : Nat) (field : List Char) : Run Fields :=
  if 32 * index + field.length + 1 ≤ 6 * 32 then
    if field.length + 1 ≤ 32 then
      .done (fields.set index (field ++ NUL :: (fields.getD index []).drop (field.length + 1)))
    else .fault (.outsideRow index field.length)
  else .fault (.outsideArray index field.length)

/-! ## The loader -/

/-- The inner loop of LoadZipCodes, `while (field != 0)`: the token at hand is
copied into row `index`, the index goes up by one and strtok gives the next
token. `pending` is the value of `field`: none for the null pointer, else the
token and the text strtok has kept for the next call. -/
def fieldLoop : Nat → Option (List Char × List Char) → Nat → Fields → Run Fields
  | _, none, _, fields => .done fields
  | 0, some _, _, _ => .fault .fuel
  | fuel + 1, some (field, rest), index, fields =>
    (strcpy fields index field).andThen fun stored =>
      fieldLoop fuel (strtok ',' rest) (index + 1) stored

/-- The body of the outer loop for the line fgets has delivered (a C string):
the fields of the line are stored, then the entry of atoi(fields[0]) is set to
the coordinate converted from fields[2] and fields[3]. -/
def processLine (line : List Char) (fields : Fields) (table : ZipMap) : Run (Fields × ZipMap) :=
  (fieldLoop line.length (strtok ',' line) 0 fields).andThen fun stored =>
    let latLon : LatLon :=
      ⟨ConvertStringToDouble (fieldAt stored 2), ConvertStringToDouble (fieldAt stored 3)⟩
    .done (stored, table.assign (atoi (fieldAt stored 0)) latLon)

/-- The outer loop, `while (fgets(line.data(), line.size(), filePtr) != 0)`,
over what is left of the file; line.size() is 1024. -/
def readLoop : Nat → List Char → Fields → ZipMap → Run (Fields × ZipMap)
  | fuel, stream, fields, table =>
    match fgets 1024 stream with
    | none => .done (fields, table)
    | some (chunk, rest) =>
      match fuel with
      | 0 => .fault .fuel
      | fuel + 1 =>
        (processLine (cstr chunk) fields table).andThen fun state =>
          readLoop fuel rest state.1 state.2

/-- What the loader reaches outside the program: the file system as fopen sees
it (the bytes of the file, or the error number fopen leaves in errno), the
value errno holds before the call, and the table of strerror, whose messages
are short. -/
structure Env where
  fopen : List Char → Except Nat (List Char)
  errno : Nat
  strerror : Nat → List Char
  strerror_short : ∀ e, (strerror e).length < 256

/-- The constructor of FileHandler: fopen is called only for a path that is
not empty. Gives the stream (none for the null pointer) and errno after it. -/
def FileHandler (env : Env) (filePath : List Char) : Option (List Char) × Nat :=
  if filePath.length > 0 then
    match env.fopen filePath with
    | .ok bytes => (some bytes, env.errno)
    | .error e => (none, e)
  else (none, env.errno)

/-- The text sprintf writes in front of the strerror message. -/
def openErrorText : List Char :=
  "An error occurred while attempting to open our file: ".toList

/-- The sprintf into errorString, a vector of 1024 bytes, and the message
made from it. -/
def openErrorMessage (env : Env) (errno : Nat) : Run (List Char) :=
  let text := openErrorText ++ env.strerror errno
  if text.length + 1 ≤ 1024 then .done text else .fault (.errorString text.length)

/-- The function LoadZipCodes on the table: the tuple (Success, ErrMessage) it
returns and the table after the call. -/
def LoadZipCodes (env : Env) (filePath : List Char) (table : ZipMap) :
    Run ((Bool × List Char) × ZipMap) :=
  match FileHandler env filePath with
  | (none, errno) =>
    (openErrorMessage env errno).andThen fun message => .done ((false, message), table)
  | (some stream, _) =>
    (readLoop stream.length stream zeroFields table).andThen fun state =>
      .done ((true, "Success".toList), state.2)

/-! ## What the loader reads from a file: lines, tokens, records -/

/-- The tokens the calls of strtok in the inner loop return one after the
other, from the value `pending` of `field` on. -/
def tokensFrom : Nat → Option (List Char × List Char) → List (List Char)
  | _, none => []
  | 0, some _ => []
  | fuel + 1, some (field, rest) => field :: tokensFrom fuel (strtok ',' rest)

/-- The fields strtok finds in a line, in order. -/
def tokens (line : List Char) : List (List Char) :=
  tokensFrom line.length (strtok ',' line)

/-- The C strings the calls of fgets in the outer loop deliver one after the
other from a stream. -/
def linesFrom : Nat → List Char → List (List Char)
  | fuel, stream =>
    match fgets 1024 stream with
    | none => []
    | some (chunk, rest) =>
      match fuel with
      | 0 => []
      | fuel + 1 => cstr chunk :: linesFrom fuel rest

/-- The lines of a file as the loader sees them. -/
def fileLines (stream : List Char) : List (List Char) := linesFrom stream.length stream

/-- The postal code parsed from a line: atoi of its first field. -/
def lineKey (line : List Char) : Int := atoi ((tokens line).getD 0 [])

/-- The coordinate parsed from a line: its third and fourth fields
converted. -/
def lineLatLon (line : List Char) : LatLon :=
  ⟨ConvertStringToDouble ((tokens line).getD 2 []), ConvertStringToDouble ((tokens line).getD 3 [])⟩

/-- A line fits the field buffer: at most 6 fields, each shorter than 32
bytes. -/
def fitsFields (line : List Char) : Prop :=
  (tokens line).length ≤ 6 ∧ ∀ t ∈ tokens line, t.length < 32

instance (line : List Char) : Decidable (fitsFields line) := by
  unfold fitsFields
  exact inferInstance

/-- The rows after the tokens ts have been copied into rows index, index + 1,
and so on, when every copy stays in its row. -/
def storeAll : List (List Char) → Nat → Fields → Fields
  | [], _, fields => fields
  | t :: ts, index, fields =>
    storeAll ts (index + 1)
      (fields.set index (t ++ NUL :: (fields.getD index []).drop (t.length + 1)))

/-- The outer loop body run over a list of lines in turn. -/
def loadLines : List (List Char) → Fields → ZipMap → Run (Fields × ZipMap)
  | [], fields, table => .done (fields, table)
  | line :: rest, fields, table =>
    (processLine line fields table).andThen fun state => loadLines rest state.1 state.2

/-! ## Concrete surroundings for worked examples -/

/-- The strerror table of the examples: error 2 is ENOENT. -/
def exampleStrerror (e : Nat) : List Char :=
  if e = 2 then "No such file or directory".toList else "Unknown error".toList

/-- A file system holding exactly the listed files (path, bytes): fopen of any
other path fails with ENOENT. errno is 0 before the call. -/
def Env.ofFiles (files : List (List Char × List Char)) : Env where
  fopen := fun path =>
    match files.lookup path with
    | some bytes => .ok bytes
    | none => .error 2
  errno := 0
  strerror := exampleStrerror
  strerror_short := fun e => by
    unfold exampleStrerror
    split <;> decide

/-- The file system with the one file "zips.csv". -/
def Env.single (bytes : String) : Env := Env.ofFiles [("zips.csv".toList, bytes.toList)]

/-- The table of the examples: 94040 is at the doubles of 37.3861 and
-122.0839. -/
def exampleTable : ZipMap :=
  ZipMap.clear.assign 94040
    ⟨nearestDouble (mkRat 373861 10000), nearestDouble (mkRat (-1220839) 10000)⟩

/-- The table after the entry of the postal code parsed from each line, in
turn, has been set to the coordinate parsed from that line. -/
def recordLines (lines : List (List Char)) (table : ZipMap) : ZipMap :=
  lines.foldl (fun tb l => tb.assign (lineKey l) (lineLatLon l)) table

/-- The file with a repeated key: 94040 occurs on the first and the last line. -/
def duplicateKeyFile : String :=
  "94040,Old Town,1.5,2.5,CA\n10001,New York,40.7,-74.0,NY\n94040,Mountain View,37.3861,-122.0839,CA\n"

/-- One line of 1031 bytes: the fields 7, a, 1, 2, a run of 1016 commas, the
fields secondKey, b, 3, 4 and the newline. fgets, with its buffer of 1024
bytes, delivers it in two pieces. -/
def longLineFile (secondKey : Char) : List Char :=
  "7,a,1,2".toList ++ List.replicate 1016 ',' ++ secondKey :: ",b,3,4\n".toList

/-! ## The text of a well-formed line -/

/-- The fields of a line joined by commas. -/
def joinFields : List (List Char) → List Char
  | [] => []
  | [f] => f
  | f :: g :: fs => f ++ ',' :: joinFields (g :: fs)

/-- A field of a well-formed line: not empty and without a comma. -/
def plainField (f : List Char) : Prop := f ≠ [] ∧ ',' ∉ f

/-- The fields with the line terminator added to the last of them: what
strtok finds in the joined fields followed by the terminator. -/
def withTerminator : List (List Char) → List Char → List (List Char)
  | [], _ => []
  | [f], terminator => [f ++ terminator]
  | f :: g :: fs, terminator => f :: withTerminator (g :: fs) terminator

/-- Every character of the text is a decimal digit. -/
def allDigits (s : List Char) : Prop := ∀ c ∈ s, isdigit c = true

/-- A decimal number as text: an optional minus, the digits before the point
and, when there are digits after the point, the point and those digits. -/
def decimalText (negative : Bool) (whole frac : List Char) : List Char :=
  (if negative then ['-'] else []) ++ whole ++ (if frac.isEmpty then [] else '.' :: frac)

/-- The number a decimal text denotes. -/
def decimalNumber (negative : Bool) (whole frac : List Char) : ℚ :=
  (if negative then -1 else 1) *
    ((decimalValue whole : ℚ) + (decimalValue frac : ℚ) / 10 ^ frac.length)

instance (f : List Char) : Decidable (plainField f) := by
  unfold plainField
  exact inferInstance

instance (s : List Char) : Decidable (allDigits s) := by
  unfold allDigits
  exact inferInstance

/-- Whether a text starts with a number as strtol reads it: after white space
and an optional sign there is a digit. -/
def startsWithNumber (s : List Char) : Bool :=
  !((takeSign (s.dropWhile isspace)).2.takeWhile isdigit).isEmpty

/-- A file of three lines with the postal codes 94040, 10001 and 60601. -/
def threeLinesFile : String :=
  "94040,Mountain View,37.3861,-122.0839,CA\n10001,New York,40.7,-74.0,NY\n60601,Chicago,41.88,-87.62,IL\n"

/-- The lines of threeLinesFile in another order. -/
def threeLinesShuffled : String :=
  "60601,Chicago,41.88,-87.62,IL\n94040,Mountain View,37.3861,-122.0839,CA\n10001,New York,40.7,-74.0,NY\n"

/-! ## The insertions of a load, in order -/

/-- The insertions the outer loop makes over a list of lines, in order: for
each line the key and the coordinate of the assignment to the table. -/
def insertions : List (List Char) → Fields → Run (List (Int × LatLon))
  | [], _ => .done []
  | line :: rest, fields =>
    (fieldLoop line.length (strtok ',' line) 0 fields).andThen fun stored =>
      (insertions rest stored).andThen fun later =>
        .done ((atoi (fieldAt stored 0),
          ⟨ConvertStringToDouble (fieldAt stored 2), ConvertStringToDouble (fieldAt stored 3)⟩)
          :: later)

/-- The insertions of the load of a file. -/
def fileInsertions (stream : List Char) : Run (List (Int × LatLon)) :=
  insertions (fileLines stream) zeroFields

/-- The table after a list of insertions. -/
def applyInsertions (trace : List (Int × LatLon)) (table : ZipMap) : ZipMap :=
  trace.foldl (fun tb e => tb.assign e.1 e.2) table

/-- The text of a file whose lines each end with a newline. -/
def joinLines : List (List Char) → List Char
  | [] => []
  | l :: rest => l ++ '\n' :: joinLines rest

/-- The text of a line that fgets delivers whole: no newline and no NUL in it,
and fewer than 1023 bytes. -/
def wholeLine (l : List Char) : Prop := '\n' ∉ l ∧ NUL ∉ l ∧ l.length < 1023

instance (l : List Char) : Decidable (wholeLine l) := by
  unfold wholeLine
  exact inferInstance

/-! ## The copies into the field buffer -/

/-- The calls of strcpy the inner loop makes, in order, from the value
`pending` of `field` on: for each the row index and the number of bytes stored
(the bytes of the token and the closing NUL). -/
def fieldCopies : Nat → Option (List Char × List Char) → Nat → List (Nat × Nat)
  | _, none, _ => []
  | 0, some _, _ => []
  | fuel + 1, some (field, rest), index =>
    (index, field.length + 1) :: fieldCopies fuel (strtok ',' rest) (index + 1)

/-- The copies the loop body makes for a line. -/
def lineCopies (line : List Char) : List (Nat × Nat) :=
  fieldCopies line.length (strtok ',' line) 0

/-- A copy (row index, bytes stored) stays inside its own row of `fields`: the
row is one of the 6 and the bytes are at most 32. -/
def inOwnSlot (copy : Nat × Nat) : Prop := copy.1 < 6 ∧ copy.2 ≤ 32

instance (copy : Nat × Nat) : Decidable (inOwnSlot copy) := by
  unfold inOwnSlot
  exact inferInstance

/-- A line whose last field is 31 bytes long. -/
def slotLine : String :=
  "47876,Saint Mary of the Woods,39.51,-87.46,Saint Mary of the Woods College"

/-- A file of two lines that fit the field buffer; the second has six fields
and a last field of 30 bytes. -/
def slotFile : String :=
  "94040,Mountain View,37.3861,-122.0839,CA\n47876,Saint Mary of the Woods,39.51,-87.46,IN,Saint Mary of the Woods Campus\n"

/-- Every character of the text is white space. -/
def allSpace (s : List Char) : Prop := ∀ c ∈ s, isspace c = true

instance (s : List Char) : Decidable (allSpace s) := by
  unfold allSpace
  exact inferInstance

/-! # Properties -/

/-! ## The table -/

theorem findEntry_assignEntry_same (k : Int) (v : LatLon) (es : List (Int × LatLon)) :
    findEntry k (assignEntry k v es) = some v := by
  induction es with
  | nil => simp [assignEntry, findEntry]
  | cons e rest ih =>
    obtain ⟨k', v'⟩ := e
    unfold assignEntry
    split_ifs with h1 h2
    · simp [findEntry]
    · simp [findEntry]
    · have h3 : ¬ k' = k := fun h => h2 h.symm
      simp [findEntry, h3, ih]

theorem findEntry_assignEntry_other (k k' : Int) (v : LatLon) (es : List (Int × LatLon))
    (h : k' ≠ k) : findEntry k' (assignEntry k v es) = findEntry k' es := by
  induction es with
  | nil => simp [assignEntry, findEntry, h.symm]
  | cons e rest ih =>
    obtain ⟨k1, v1⟩ := e
    unfold assignEntry
    split_ifs with h1 h2
    · simp [findEntry, h.symm]
    · subst h2
      simp [findEntry, h.symm]
    · simp only [findEntry, ih]

theorem findEntry_of_mem (k : Int) (v : LatLon) (es : List (Int × LatLon))
    (hord : (keysOf es).Pairwise (· < ·)) (hmem : (k, v) ∈ es) : findEntry k es = some v := by
  induction es with
  | nil => simp at hmem
  | cons e rest ih =>
    obtain ⟨k1, v1⟩ := e
    have hk : ∀ x ∈ keysOf rest, k1 < x := by
      simpa [keysOf] using (List.pairwise_cons.1 hord).1
    have hrest : (keysOf rest).Pairwise (· < ·) := by
      simpa [keysOf] using (List.pairwise_cons.1 hord).2
    rcases List.mem_cons.1 hmem with h | h
    · cases h
      simp [findEntry]
    · have hkr : k ∈ keysOf rest := List.mem_map.2 ⟨(k, v), h, rfl⟩
      have hne : ¬ k1 = k := fun hh => by
        have := hk k hkr
        omega
      simp only [findEntry, hne, if_false]
      exact ih hrest h

theorem mem_of_findEntry (k : Int) (v : LatLon) (es : List (Int × LatLon))
    (h : findEntry k es = some v) : (k, v) ∈ es := by
  induction es with
  | nil => simp [findEntry] at h
  | cons e rest ih =>
    obtain ⟨k1, v1⟩ := e
    unfold findEntry at h
    split_ifs at h with h1
    · cases h
      subst h1
      exact List.mem_cons_self _ _
    · exact List.mem_cons_of_mem _ (ih h)

theorem findEntry_none (k : Int) (es : List (Int × LatLon)) (h : k ∉ keysOf es) :
    findEntry k es = none := by
  induction es with
  | nil => rfl
  | cons e rest ih =>
    obtain ⟨k1, v1⟩ := e
    have h1 : ¬ k1 = k := fun hh => h (by simp [keysOf, hh])
    have h2 : k ∉ keysOf rest := fun hh => h (by
      simp only [keysOf, List.map_cons, List.mem_cons]
      exact Or.inr hh)
    simp only [findEntry, h1, if_false]
    exact ih h2

theorem lookup_eq (table : ZipMap) (k : Int) :
    lookup table k = (findEntry k table.entries).getD ⟨0, 0⟩ := by
  unfold lookup GetLatAndLon ZipMap.find
  cases findEntry k table.entries <;> rfl

theorem lookup_of_mem (table : ZipMap) (k : Int) (v : LatLon) (h : (k, v) ∈ table.entries) :
    lookup table k = v := by
  rw [lookup_eq, findEntry_of_mem k v table.entries table.ordered h]
  rfl

theorem lookup_assign_same (table : ZipMap) (k : Int) (v : LatLon) :
    lookup (table.assign k v) k = v := by
  rw [lookup_eq]
  simp [ZipMap.assign, findEntry_assignEntry_same]

theorem lookup_assign_other (table : ZipMap) (k k' : Int) (v : LatLon) (h : k' ≠ k) :
    lookup (table.assign k v) k' = lookup table k' := by
  rw [lookup_eq, lookup_eq]
  simp [ZipMap.assign, findEntry_assignEntry_other k k' v _ h]

theorem mem_assign_other (table : ZipMap) (k k' : Int) (v v' : LatLon) (h : k' ≠ k)
    (hmem : (k', v') ∈ table.entries) : (k', v') ∈ (table.assign k v).entries := by
  apply mem_of_findEntry
  show findEntry k' (assignEntry k v table.entries) = some v'
  rw [findEntry_assignEntry_other k k' v _ h]
  exact findEntry_of_mem k' v' _ table.ordered hmem

/-! ## Query and release: C1, C8 -/

/-- C1: for every table and every postal code k, GetLatAndLon leaves the table
as it was, returns the coordinate stored under k when the table has an entry
for k, and returns (0,0) when k is not a key. It is a total function: there is
no failing outcome. -/
theorem GetLatAndLon_contract (table : ZipMap) (k : Int) :
    (GetLatAndLon k table).2 = table ∧
    (∀ v, (k, v) ∈ table.entries → (GetLatAndLon k table).1 = v) ∧
    (k ∉ table.keys → (GetLatAndLon k table).1 = ⟨0, 0⟩) := by
  refine ⟨?_, ?_, ?_⟩
  · unfold GetLatAndLon
    cases table.find k <;> rfl
  · intro v hv
    have h := findEntry_of_mem k v table.entries table.ordered hv
    show lookup table k = v
    rw [lookup_eq, h]
    rfl
  · intro hk
    have h := findEntry_none k table.entries hk
    show lookup table k = ⟨0, 0⟩
    rw [lookup_eq, h]
    rfl

/-- C1 at a table with the one key 94040: the stored coordinate comes back for
94040, (0,0) for 10001, and the table is unchanged. -/
theorem GetLatAndLon_contract_witness :
    (GetLatAndLon 94040 exampleTable).1 =
      ⟨nearestDouble (mkRat 373861 10000),
       nearestDouble (mkRat (-1220839) 10000)⟩ ∧
    (GetLatAndLon 10001 exampleTable).1 = ⟨0, 0⟩ ∧
    (GetLatAndLon 94040 exampleTable).2 = exampleTable :=
  ⟨(GetLatAndLon_contract exampleTable 94040).2.1 _ (by decide),
   (GetLatAndLon_contract exampleTable 10001).2.2 (by decide),
   (GetLatAndLon_contract exampleTable 94040).1⟩

/-- C8: after ReleaseZipCodes, from any table (an empty one included), the
table has no entry and GetLatAndLon returns (0,0) for every key. -/
theorem ReleaseZipCodes_then_lookup (table : ZipMap) (k : Int) :
    (ReleaseZipCodes table).entries = [] ∧
    (GetLatAndLon k (ReleaseZipCodes table)).1 = ⟨0, 0⟩ := by
  have h : (ReleaseZipCodes table).entries = [] := by
    unfold ReleaseZipCodes ZipMap.empty
    cases hE : table.entries with
    | nil => simp [hE]
    | cons e es => simp [hE, ZipMap.clear]
  refine ⟨h, ?_⟩
  show lookup (ReleaseZipCodes table) k = ⟨0, 0⟩
  rw [lookup_eq, h]
  rfl

/-! ## Failure to open: C4 -/

/-- C4: when the path is empty (fopen is not called) or fopen fails, the load
returns success=false with the diagnostic text followed by the strerror
message of errno, and the table is exactly the one before the call, so every
key gives the same GetLatAndLon result. -/
theorem LoadZipCodes_open_failure (env : Env) (filePath : List Char) (table : ZipMap)
    (h : filePath = [] ∨ ∃ e, env.fopen filePath = .error e) :
    ∃ table', LoadZipCodes env filePath table =
        .done ((false, openErrorText ++ env.strerror (FileHandler env filePath).2), table') ∧
      table' = table ∧ ∀ k, GetLatAndLon k table' = GetLatAndLon k table := by
  have hnone : (FileHandler env filePath).1 = none := by
    unfold FileHandler
    rcases h with h | ⟨e, h⟩
    · simp [h]
    · rw [h]
      split_ifs <;> rfl
  have hfit : ∀ e, (openErrorText ++ env.strerror e).length + 1 ≤ 1024 := by
    intro e
    have h1 := env.strerror_short e
    have h2 : openErrorText.length = 53 := by decide
    rw [List.length_append, h2]
    omega
  refine ⟨table, ?_, rfl, fun _ => rfl⟩
  unfold LoadZipCodes
  rcases hF : FileHandler env filePath with ⟨stream, errno⟩
  rw [hF] at hnone
  simp only at hnone
  subst hnone
  simp only [openErrorMessage, hfit errno, if_true, Run.andThen]

/-- C4 at the empty path and at a missing file, with 94040 in the table: both
loads return false with a message and keep the table. -/
theorem LoadZipCodes_open_failure_witness :
    (LoadZipCodes (Env.single "") [] exampleTable =
      .done ((false, "An error occurred while attempting to open our file: Unknown error".toList),
        exampleTable)) ∧
    (∃ table', LoadZipCodes (Env.single "") "missing.csv".toList exampleTable =
        .done ((false, openErrorText ++
          (Env.single "").strerror (FileHandler (Env.single "") "missing.csv".toList).2), table') ∧
      table' = exampleTable ∧ ∀ k, GetLatAndLon k table' = GetLatAndLon k exampleTable) :=
  ⟨by decide, LoadZipCodes_open_failure (Env.single "") "missing.csv".toList exampleTable
    (Or.inr ⟨2, rfl⟩)⟩

/-! ## The C library functions: what a call consumes and returns -/

theorem mem_cstr_ne_NUL (buf : List Char) : NUL ∉ cstr buf := by
  intro h
  have := List.mem_takeWhile_imp h
  simp at this

theorem cstr_append_NUL (t rest : List Char) (h : NUL ∉ t) : cstr (t ++ NUL :: rest) = t := by
  induction t with
  | nil => simp [cstr]
  | cons c cs ih =>
    have hc : c ≠ NUL := fun hh => h (by simp [hh])
    have hcs : NUL ∉ cs := fun hh => h (List.mem_cons_of_mem _ hh)
    have := ih hcs
    simp only [cstr] at this ⊢
    simp [List.takeWhile_cons, hc, this]

theorem strtok_some (delim : Char) (s t rest : List Char)
    (h : strtok delim s = some (t, rest)) :
    rest.length < s.length ∧ (∀ x ∈ t, x ∈ s) ∧ (∀ x ∈ rest, x ∈ s) := by
  unfold strtok at h
  have hsuf : (s.dropWhile (· == delim)) <:+ s := List.dropWhile_suffix _
  cases hd : s.dropWhile (· == delim) with
  | nil => rw [hd] at h; simp at h
  | cons c cs =>
    rw [hd] at h hsuf
    simp only [Option.some.injEq, Prod.mk.injEq] at h
    obtain ⟨ht, hrest⟩ := h
    have hlen : (c :: cs).length ≤ s.length := hsuf.length_le
    have hsub : ∀ x ∈ c :: cs, x ∈ s := fun x hx => hsuf.subset hx
    have hdw : ((c :: cs).dropWhile (· != delim)) <:+ (c :: cs) := List.dropWhile_suffix _
    refine ⟨?_, ?_, ?_⟩
    · rw [← hrest, List.length_drop]
      have := hdw.length_le
      simp only [List.length_cons] at this hlen
      omega
    · intro x hx
      rw [← ht] at hx
      exact hsub x ((List.takeWhile_prefix _).subset hx)
    · intro x hx
      rw [← hrest] at hx
      exact hsub x (hdw.subset (List.mem_of_mem_drop hx))

theorem fgetsRead_length (room : Nat) (stream : List Char) :
    (fgetsRead room stream).2.length ≤ stream.length := by
  induction room generalizing stream with
  | zero => simp [fgetsRead]
  | succ n ih =>
    cases stream with
    | nil => simp [fgetsRead]
    | cons c cs =>
      unfold fgetsRead
      split_ifs
      · simp
      · have := ih cs
        simp only [List.length_cons]
        omega

theorem fgets_some (stream chunk rest : List Char)
    (h : fgets 1024 stream = some (chunk, rest)) : rest.length < stream.length := by
  cases stream with
  | nil => simp [fgets] at h
  | cons c cs =>
    simp only [fgets, Option.some.injEq] at h
    have h2 : rest = (fgetsRead 1023 (c :: cs)).2 := by rw [h]
    rw [h2]
    unfold fgetsRead
    split_ifs
    · simp
    · have := fgetsRead_length 1022 cs
      simp only [List.length_cons]
      omega

/-! ## The inner loop: storing the fields of a line -/

theorem storeAll_length (ts : List (List Char)) (index : Nat) (fields : Fields) :
    (storeAll ts index fields).length = fields.length := by
  induction ts generalizing index fields with
  | nil => rfl
  | cons t ts ih => simp [storeAll, ih]

theorem fieldLoop_eq_storeAll (fuel : Nat) :
    ∀ (pending : Option (List Char × List Char)) (index : Nat) (fields : Fields),
    (∀ t r, pending = some (t, r) → r.length < fuel) →
    index + (tokensFrom fuel pending).length ≤ 6 →
    (∀ t ∈ tokensFrom fuel pending, t.length < 32) →
    fieldLoop fuel pending index fields =
      .done (storeAll (tokensFrom fuel pending) index fields) := by
  induction fuel with
  | zero =>
    intro pending index fields hfuel _ _
    cases pending with
    | none => simp [fieldLoop, tokensFrom, storeAll]
    | some p => exact absurd (hfuel p.1 p.2 rfl) (Nat.not_lt_zero _)
  | succ fuel ih =>
    intro pending index fields hfuel hcap hshort
    cases pending with
    | none => simp [fieldLoop, tokensFrom, storeAll]
    | some p =>
      obtain ⟨t, r⟩ := p
      simp only [tokensFrom, List.length_cons] at hcap hshort
      have ht : t.length < 32 := hshort t (List.mem_cons_self _ _)
      have hcopy : strcpy fields index t =
          .done (fields.set index (t ++ NUL :: (fields.getD index []).drop (t.length + 1))) := by
        unfold strcpy
        rw [if_pos (by omega), if_pos (by omega)]
      have hnext : ∀ t' r', strtok ',' r = some (t', r') → r'.length < fuel := by
        intro t' r' h'
        have h1 := (strtok_some ',' r t' r' h').1
        have h2 := hfuel t r rfl
        omega
      simp only [fieldLoop, tokensFrom, storeAll, hcopy, Run.andThen]
      exact ih (strtok ',' r) (index + 1) _ hnext (by omega)
        (fun t' h' => hshort t' (List.mem_cons_of_mem _ h'))

theorem tokensFrom_no_NUL (fuel : Nat) :
    ∀ (pending : Option (List Char × List Char)),
    (∀ t r, pending = some (t, r) → NUL ∉ t ∧ NUL ∉ r) →
    ∀ t ∈ tokensFrom fuel pending, NUL ∉ t := by
  induction fuel with
  | zero =>
    intro pending _ t ht
    cases pending <;> simp [tokensFrom] at ht
  | succ fuel ih =>
    intro pending hp t ht
    cases pending with
    | none => simp [tokensFrom] at ht
    | some p =>
      obtain ⟨t0, r⟩ := p
      simp only [tokensFrom, List.mem_cons] at ht
      have h0 := hp t0 r rfl
      rcases ht with rfl | ht
      · exact h0.1
      · refine ih (strtok ',' r) ?_ t ht
        intro t' r' h'
        have hs := strtok_some ',' r t' r' h'
        exact ⟨fun hh => h0.2 (hs.2.1 _ hh), fun hh => h0.2 (hs.2.2 _ hh)⟩

theorem tokens_no_NUL (line : List Char) (h : NUL ∉ line) : ∀ t ∈ tokens line, NUL ∉ t := by
  refine tokensFrom_no_NUL line.length (strtok ',' line) ?_
  intro t r h'
  have hs := strtok_some ',' line t r h'
  exact ⟨fun hh => h (hs.2.1 _ hh), fun hh => h (hs.2.2 _ hh)⟩

theorem fieldAt_set (fields : Fields) (index i : Nat) (row : List Char)
    (hindex : index < fields.length) :
    fieldAt (fields.set index row) i = if i = index then cstr row else fieldAt fields i := by
  unfold fieldAt
  rw [List.getD_eq_getElem?_getD, List.getD_eq_getElem?_getD, List.getElem?_set]
  by_cases h : i = index
  · subst h
    simp [hindex]
  · have h' : ¬ index = i := fun hh => h hh.symm
    simp [h, h']

theorem fieldAt_storeAll (ts : List (List Char)) :
    ∀ (index : Nat) (fields : Fields) (i : Nat), fields.length = 6 →
    index + ts.length ≤ 6 → (∀ t ∈ ts, NUL ∉ t) →
    fieldAt (storeAll ts index fields) i =
      if index ≤ i ∧ i < index + ts.length then ts.getD (i - index) [] else fieldAt fields i := by
  induction ts with
  | nil =>
    intro index fields i _ _ _
    have : ¬ (index ≤ i ∧ i < index + ([] : List (List Char)).length) := by
      simp only [List.length_nil]
      omega
    rw [if_neg this]
    rfl
  | cons t ts ih =>
    intro index fields i hlen hcap hnul
    simp only [List.length_cons] at hcap
    have hlen' : (fields.set index
        (t ++ NUL :: (fields.getD index []).drop (t.length + 1))).length = 6 := by
      simpa using hlen
    have hrec := ih (index + 1) _ i hlen' (by omega)
      (fun t' h' => hnul t' (List.mem_cons_of_mem _ h'))
    simp only [storeAll]
    rw [hrec, fieldAt_set _ _ _ _ (by omega),
      cstr_append_NUL _ _ (hnul t (List.mem_cons_self _ _))]
    simp only [List.length_cons]
    by_cases h1 : i = index
    · subst h1
      rw [if_neg (by omega), if_pos rfl, if_pos (by omega)]
      simp
    · rw [if_neg h1]
      by_cases h2 : index + 1 ≤ i ∧ i < index + 1 + ts.length
      · rw [if_pos h2, if_pos (by omega)]
        obtain ⟨d, hd⟩ : ∃ d, i - index = d + 1 := ⟨i - index - 1, by omega⟩
        have hd' : i - (index + 1) = d := by omega
        rw [hd, hd', List.getD_cons_succ]
      · rw [if_neg h2, if_neg (by omega)]

/-! ## The outer loop: one record per line -/

theorem processLine_eq (line : List Char) (fields : Fields) (table : ZipMap)
    (hfit : fitsFields line) :
    processLine line fields table =
      .done (storeAll (tokens line) 0 fields,
        table.assign (atoi (fieldAt (storeAll (tokens line) 0 fields) 0))
          ⟨ConvertStringToDouble (fieldAt (storeAll (tokens line) 0 fields) 2),
           ConvertStringToDouble (fieldAt (storeAll (tokens line) 0 fields) 3)⟩) := by
  have h := fieldLoop_eq_storeAll line.length (strtok ',' line) 0 fields
    (fun t r h' => (strtok_some ',' line t r h').1)
    (by have := hfit.1; unfold tokens at this; omega)
    (by have := hfit.2; unfold tokens at this; exact this)
  unfold processLine
  rw [h]
  rfl

theorem processLine_full (line : List Char) (fields : Fields) (table : ZipMap)
    (hlen : fields.length = 6) (hnul : NUL ∉ line) (hfit : fitsFields line)
    (hfour : 4 ≤ (tokens line).length) :
    processLine line fields table =
      .done (storeAll (tokens line) 0 fields, table.assign (lineKey line) (lineLatLon line)) := by
  have hat : ∀ i, i < 4 →
      fieldAt (storeAll (tokens line) 0 fields) i = (tokens line).getD i [] := by
    intro i hi
    rw [fieldAt_storeAll (tokens line) 0 fields i hlen (by have := hfit.1; omega)
      (tokens_no_NUL line hnul), if_pos (by omega)]
    rfl
  rw [processLine_eq line fields table hfit, hat 0 (by omega), hat 2 (by omega),
    hat 3 (by omega)]
  rfl

theorem readLoop_eq_loadLines (fuel : Nat) :
    ∀ (stream : List Char) (fields : Fields) (table : ZipMap), stream.length ≤ fuel →
    readLoop fuel stream fields table = loadLines (linesFrom fuel stream) fields table := by
  induction fuel with
  | zero =>
    intro stream fields table h
    have hs : stream = [] := List.length_eq_zero.1 (Nat.le_zero.1 h)
    subst hs
    simp [readLoop, linesFrom, fgets, loadLines]
  | succ fuel ih =>
    intro stream fields table h
    unfold readLoop linesFrom
    cases hg : fgets 1024 stream with
    | none => simp [loadLines]
    | some p =>
      obtain ⟨chunk, rest⟩ := p
      have hrest := fgets_some stream chunk rest hg
      have hfun : (fun state : Fields × ZipMap => readLoop fuel rest state.1 state.2) =
          fun state => loadLines (linesFrom fuel rest) state.1 state.2 :=
        funext fun state => ih rest state.1 state.2 (by omega)
      simp only [loadLines, hfun]

theorem linesFrom_no_NUL (fuel : Nat) :
    ∀ (stream : List Char), ∀ l ∈ linesFrom fuel stream, NUL ∉ l := by
  induction fuel with
  | zero =>
    intro stream l hl
    unfold linesFrom at hl
    cases hg : fgets 1024 stream with
    | none => simp [hg] at hl
    | some p => simp [hg] at hl
  | succ fuel ih =>
    intro stream l hl
    unfold linesFrom at hl
    cases hg : fgets 1024 stream with
    | none => simp [hg] at hl
    | some p =>
      obtain ⟨chunk, rest⟩ := p
      simp only [hg, List.mem_cons] at hl
      rcases hl with rfl | hl
      · exact mem_cstr_ne_NUL chunk
      · exact ih rest l hl

theorem fileLines_no_NUL (stream : List Char) : ∀ l ∈ fileLines stream, NUL ∉ l :=
  linesFrom_no_NUL stream.length stream

theorem LoadZipCodes_opened (env : Env) (filePath stream : List Char) (table : ZipMap)
    (hpath : filePath ≠ []) (hopen : env.fopen filePath = .ok stream) :
    LoadZipCodes env filePath table =
      (loadLines (fileLines stream) zeroFields table).andThen fun state =>
        .done ((true, "Success".toList), state.2) := by
  have hpos : filePath.length > 0 := List.length_pos.2 hpath
  unfold LoadZipCodes FileHandler
  rw [if_pos hpos, hopen]
  simp only
  rw [readLoop_eq_loadLines stream.length stream zeroFields table (le_refl _)]
  rfl

/-! ## Lines that fill the first four fields -/

theorem loadLines_full (lines : List (List Char)) :
    ∀ (fields : Fields) (table : ZipMap), fields.length = 6 →
    (∀ l ∈ lines, NUL ∉ l ∧ fitsFields l ∧ 4 ≤ (tokens l).length) →
    ∃ fields', fields'.length = 6 ∧
      loadLines lines fields table = .done (fields', recordLines lines table) := by
  induction lines with
  | nil =>
    intro fields table hlen _
    exact ⟨fields, hlen, rfl⟩
  | cons l rest ih =>
    intro fields table hlen h
    obtain ⟨hnul, hfit, hfour⟩ := h l (List.mem_cons_self _ _)
    have hstep := processLine_full l fields table hlen hnul hfit hfour
    obtain ⟨fields', hlen', hrest⟩ := ih (storeAll (tokens l) 0 fields)
      (table.assign (lineKey l) (lineLatLon l))
      (by rw [storeAll_length]; exact hlen)
      (fun l' h' => h l' (List.mem_cons_of_mem _ h'))
    refine ⟨fields', hlen', ?_⟩
    simp only [loadLines, hstep, Run.andThen, hrest]
    rfl

theorem lookup_recordLines_other (lines : List (List Char)) (k : Int) :
    ∀ (table : ZipMap), (∀ l ∈ lines, lineKey l ≠ k) →
    lookup (recordLines lines table) k = lookup table k := by
  induction lines with
  | nil => intro table _; rfl
  | cons l rest ih =>
    intro table h
    have h1 : k ≠ lineKey l := fun hh => h l (List.mem_cons_self _ _) hh.symm
    show lookup (recordLines rest (table.assign (lineKey l) (lineLatLon l))) k = _
    rw [ih _ (fun l' h' => h l' (List.mem_cons_of_mem _ h')), lookup_assign_other _ _ _ _ h1]

theorem lookup_recordLines_last (pre post : List (List Char)) (line : List Char)
    (table : ZipMap) (hlast : ∀ l ∈ post, lineKey l ≠ lineKey line) :
    lookup (recordLines (pre ++ line :: post) table) (lineKey line) = lineLatLon line := by
  have h : recordLines (pre ++ line :: post) table =
      recordLines post ((recordLines pre table).assign (lineKey line) (lineLatLon line)) := by
    simp [recordLines, List.foldl_append]
  rw [h, lookup_recordLines_other post (lineKey line) _ hlast, lookup_assign_same]

theorem LoadZipCodes_full (env : Env) (filePath stream : List Char) (table : ZipMap)
    (hpath : filePath ≠ []) (hopen : env.fopen filePath = .ok stream)
    (hfit : ∀ l ∈ fileLines stream, fitsFields l ∧ 4 ≤ (tokens l).length) :
    LoadZipCodes env filePath table =
      .done ((true, "Success".toList), recordLines (fileLines stream) table) := by
  obtain ⟨fields', _, hload⟩ := loadLines_full (fileLines stream) zeroFields table rfl
    (fun l hl => ⟨fileLines_no_NUL stream l hl, (hfit l hl).1, (hfit l hl).2⟩)
  rw [LoadZipCodes_opened env filePath stream table hpath hopen, hload]
  rfl

/-! ## Last write wins: C2 -/

/-- C2 (as amended): for every opened file whose lines, as fgets delivers
them, each split into at least four and at most six fields shorter than 32
bytes, loaded into any table: the load succeeds, and for the last line with a
given postal code GetLatAndLon of that code returns exactly the coordinate
parsed from that line. -/
theorem LoadZipCodes_last_write_wins (env : Env) (filePath stream : List Char)
    (table : ZipMap) (pre post : List (List Char)) (line : List Char)
    (hpath : filePath ≠ []) (hopen : env.fopen filePath = .ok stream)
    (hfit : ∀ l ∈ fileLines stream, fitsFields l ∧ 4 ≤ (tokens l).length)
    (hlines : fileLines stream = pre ++ line :: post)
    (hlast : ∀ l ∈ post, lineKey l ≠ lineKey line) :
    ∃ table', LoadZipCodes env filePath table = .done ((true, "Success".toList), table') ∧
      (GetLatAndLon (lineKey line) table').1 = lineLatLon line := by
  refine ⟨recordLines (fileLines stream) table,
    LoadZipCodes_full env filePath stream table hpath hopen hfit, ?_⟩
  show lookup (recordLines (fileLines stream) table) (lineKey line) = lineLatLon line
  rw [hlines]
  exact lookup_recordLines_last pre post line table hlast

/-- C2 at a file where 94040 occurs twice, loaded over a table that already
has 94040: the coordinate of the last line is the one returned. -/
theorem LoadZipCodes_last_write_wins_witness :
    ∃ table', LoadZipCodes (Env.single duplicateKeyFile) "zips.csv".toList exampleTable =
        .done ((true, "Success".toList), table') ∧
      (GetLatAndLon (lineKey "94040,Mountain View,37.3861,-122.0839,CA\n".toList) table').1 =
        lineLatLon "94040,Mountain View,37.3861,-122.0839,CA\n".toList :=
  LoadZipCodes_last_write_wins (Env.single duplicateKeyFile) "zips.csv".toList
    duplicateKeyFile.toList exampleTable
    ["94040,Old Town,1.5,2.5,CA\n".toList, "10001,New York,40.7,-74.0,NY\n".toList] []
    "94040,Mountain View,37.3861,-122.0839,CA\n".toList
    (by decide) rfl (by decide) (by decide) (by decide)

set_option maxRecDepth 100000 in
/-- C2 as stated fails, in two ways. Every line of the first file has at least
four fields and its first line has seven: the copy of the seventh field is a
store past the end of the array fields, and the load has no defined result.
The second file is one line (its only newline is its last byte) with postal
code 7 and the coordinate fields 1 and 2; it is longer than the 1023 bytes
fgets reads at a time, its second piece is loaded as a record of its own, and
GetLatAndLon(7) returns (3,4). -/
theorem LoadZipCodes_last_write_wins_counterexample :
    LoadZipCodes
        (Env.single "94040,Old Town,1.5,2.5,CA,x,y\n94040,Mountain View,37.3861,-122.0839,CA\n")
        "zips.csv".toList ZipMap.clear = .fault (.outsideArray 6 2) ∧
    (longLineFile '7').count '\n' = 1 ∧ (longLineFile '7').getLast? = some '\n' ∧
    (longLineFile '7').take 8 = "7,a,1,2,".toList ∧
    (LoadZipCodes (Env.ofFiles [("zips.csv".toList, longLineFile '7')]) "zips.csv".toList
        ZipMap.clear).andThen (fun r => .done (r.1, (GetLatAndLon 7 r.2).1)) =
      .done ((true, "Success".toList), ⟨3, 4⟩) := by
  decide

/-! ## Keys the file does not name: C9 -/

theorem loadLines_frame (lines : List (List Char)) :
    ∀ (fields : Fields) (table : ZipMap), fields.length = 6 →
    (∀ l ∈ lines, NUL ∉ l ∧ fitsFields l) →
    ∃ fields' table', loadLines lines fields table = .done (fields', table') ∧
      ∀ k, (∀ l ∈ lines, lineKey l ≠ k) →
        (atoi (fieldAt fields 0) ≠ k ∨ atoi (fieldAt fields 0) = atoi []) →
        lookup table' k = lookup table k ∧
          ∀ v, (k, v) ∈ table.entries → (k, v) ∈ table'.entries := by
  induction lines with
  | nil =>
    intro fields table _ _
    exact ⟨fields, table, rfl, fun k _ _ => ⟨rfl, fun v hv => hv⟩⟩
  | cons l rest ih =>
    intro fields table hlen h
    obtain ⟨hnul, hfit⟩ := h l (List.mem_cons_self _ _)
    have hstep := processLine_eq l fields table hfit
    have hlen' : (storeAll (tokens l) 0 fields).length = 6 := by
      rw [storeAll_length]; exact hlen
    obtain ⟨fields', table', hrest, hframe⟩ := ih (storeAll (tokens l) 0 fields)
      (table.assign (atoi (fieldAt (storeAll (tokens l) 0 fields) 0))
        ⟨ConvertStringToDouble (fieldAt (storeAll (tokens l) 0 fields) 2),
         ConvertStringToDouble (fieldAt (storeAll (tokens l) 0 fields) 3)⟩)
      hlen' (fun l' h' => h l' (List.mem_cons_of_mem _ h'))
    refine ⟨fields', table', ?_, ?_⟩
    · simp only [loadLines, hstep, Run.andThen, hrest]
    · intro k hk hstale
      have hkl : lineKey l ≠ k := hk l (List.mem_cons_self _ _)
      have hkey : atoi (fieldAt (storeAll (tokens l) 0 fields) 0) ≠ k := by
        cases htok : tokens l with
        | nil =>
          have hl0 : lineKey l = atoi [] := by simp [lineKey, htok]
          simp only [storeAll]
          rcases hstale with hs | hs
          · exact hs
          · rw [hs, ← hl0]; exact hkl
        | cons t ts =>
          have hat := fieldAt_storeAll (tokens l) 0 fields 0 hlen
            (by have := hfit.1; omega) (tokens_no_NUL l hnul)
          rw [if_pos (by rw [htok]; simp)] at hat
          rw [← htok, hat]
          exact hkl
      obtain ⟨h1, h2⟩ := hframe k (fun l' h' => hk l' (List.mem_cons_of_mem _ h'))
        (Or.inl hkey)
      refine ⟨?_, ?_⟩
      · rw [h1, lookup_assign_other _ _ _ _ (Ne.symm hkey)]
      · intro v hv
        exact h2 v (mem_assign_other table _ k _ v (Ne.symm hkey) hv)

/-- C9 (as amended): a load never resets the table. For every table and every
opened file whose lines, as fgets delivers them, each split into at most six
fields (the non-empty fields strtok finds), every field shorter than 32 bytes
with the newline that stays on the last field of a line counted, the load
succeeds, and every key that was present before and is not the postal code
parsed from any delivered line (atoi of its first field, 0 for a line without
a field) is still present afterwards with the same coordinate. -/
theorem LoadZipCodes_keeps_other_keys (env : Env) (filePath stream : List Char)
    (table : ZipMap) (k : Int) (v : LatLon)
    (hpath : filePath ≠ []) (hopen : env.fopen filePath = .ok stream)
    (hfit : ∀ l ∈ fileLines stream, fitsFields l)
    (hpresent : (k, v) ∈ table.entries)
    (hother : ∀ l ∈ fileLines stream, lineKey l ≠ k) :
    ∃ table', LoadZipCodes env filePath table = .done ((true, "Success".toList), table') ∧
      (k, v) ∈ table'.entries ∧ (GetLatAndLon k table').1 = v := by
  obtain ⟨fields', table', hload, hframe⟩ := loadLines_frame (fileLines stream) zeroFields
    table rfl (fun l hl => ⟨fileLines_no_NUL stream l hl, hfit l hl⟩)
  have hmem := (hframe k hother (Or.inr rfl)).2 v hpresent
  refine ⟨table', ?_, hmem, lookup_of_mem table' k v hmem⟩
  rw [LoadZipCodes_opened env filePath stream table hpath hopen, hload]
  rfl

/-- C9 at a table holding 94040 and a file that names 10001 only, with a
short line in it: 94040 keeps its coordinate. -/
theorem LoadZipCodes_keeps_other_keys_witness :
    ∃ table', LoadZipCodes (Env.single "10001,New York,40.7,-74.0,NY\n10001,Gone\n")
        "zips.csv".toList exampleTable = .done ((true, "Success".toList), table') ∧
      ((94040 : Int),
        (⟨nearestDouble (mkRat 373861 10000),
          nearestDouble (mkRat (-1220839) 10000)⟩ : LatLon)) ∈ table'.entries ∧
      (GetLatAndLon 94040 table').1 =
        ⟨nearestDouble (mkRat 373861 10000),
         nearestDouble (mkRat (-1220839) 10000)⟩ :=
  LoadZipCodes_keeps_other_keys (Env.single "10001,New York,40.7,-74.0,NY\n10001,Gone\n")
    "zips.csv".toList "10001,New York,40.7,-74.0,NY\n10001,Gone\n".toList exampleTable 94040
    ⟨nearestDouble (mkRat 373861 10000), nearestDouble (mkRat (-1220839) 10000)⟩
    (by decide) rfl (by decide) (by decide) (by decide)

set_option maxRecDepth 100000 in
/-- C9 as stated fails: the file is one line (its only newline is its last
byte) whose postal code is 7, and the table holds 5 at (9,9) before the load.
The line is longer than the 1023 bytes fgets reads at a time, its second piece
is loaded as a record of its own, and 5 is at (3,4) afterwards. -/
theorem LoadZipCodes_keeps_other_keys_counterexample :
    (longLineFile '5').count '\n' = 1 ∧ (longLineFile '5').getLast? = some '\n' ∧
    atoi ((longLineFile '5').takeWhile (· != ',')) = 7 ∧
    (GetLatAndLon 5 (ZipMap.clear.assign 5 ⟨9, 9⟩)).1 = ⟨9, 9⟩ ∧
    (LoadZipCodes (Env.ofFiles [("zips.csv".toList, longLineFile '5')]) "zips.csv".toList
        (ZipMap.clear.assign 5 ⟨9, 9⟩)).andThen (fun r => .done (r.1, (GetLatAndLon 5 r.2).1)) =
      .done ((true, "Success".toList), ⟨3, 4⟩) := by
  decide

/-! ## Short lines, empty fields, long lines: C5, C6, C7 -/

/-- C5, the code at the failing input: "10001,New York" has no latitude and no
longitude field. As the first line of a load it is recorded as (0,0); after
the line of 94040 in the same load it is recorded with the coordinate of
94040, because `fields` is zeroed once, before the loop, and rows 2 and 3 keep
the bytes of the line before. -/
theorem LoadZipCodes_short_line_keeps_stale_fields :
    (LoadZipCodes (Env.single "10001,New York\n") "zips.csv".toList ZipMap.clear).andThen
        (fun r => .done (r.1, (GetLatAndLon 10001 r.2).1)) =
      .done ((true, "Success".toList), ⟨0, 0⟩) ∧
    (LoadZipCodes (Env.single "94040,Mountain View,37.3861,-122.0839,CA\n10001,New York\n")
        "zips.csv".toList ZipMap.clear).andThen
        (fun r => .done (r.1, (GetLatAndLon 10001 r.2).1)) =
      .done ((true, "Success".toList),
        ⟨nearestDouble (mkRat 373861 10000),
         nearestDouble (mkRat (-1220839) 10000)⟩) := by
  decide

/-- C6, the code at the failing input: strtok skips a run of commas, so the
line "94040,,37.3861,-122.0839" has three fields, not four; fields[2] is the
longitude text, fields[3] is not written, and the record of 94040 is
(-122.0839, 0). -/
theorem LoadZipCodes_empty_field_shifts_fields :
    tokens "94040,,37.3861,-122.0839".toList =
      ["94040".toList, "37.3861".toList, "-122.0839".toList] ∧
    (LoadZipCodes (Env.single "94040,,37.3861,-122.0839") "zips.csv".toList
        ZipMap.clear).andThen (fun r => .done (r.1, (GetLatAndLon 94040 r.2).1)) =
      .done ((true, "Success".toList), ⟨nearestDouble (mkRat (-1220839) 10000), 0⟩) := by
  decide

/-- C7, the code at the failing inputs: with a seventh field on the line the
index reaches 6 and strcpy stores past the end of `fields`; with a fifth field
of 67 bytes the copy into row 4 runs past the end of `fields` as well.
Neither load has a defined result. -/
theorem LoadZipCodes_trailing_fields_overrun :
    LoadZipCodes (Env.single "94040,Mountain View,37.3861,-122.0839,CA,x,y\n")
        "zips.csv".toList ZipMap.clear = .fault (.outsideArray 6 2) ∧
    LoadZipCodes
        (Env.single "94040,Mountain View,37.3861,-122.0839,California on the west coast of the United States of North America\n")
        "zips.csv".toList ZipMap.clear = .fault (.outsideArray 4 67) := by
  decide

/-! ## A latitude that is no number: C10 -/

theorem loadLines_append (first : List (List Char)) :
    ∀ (second : List (List Char)) (fields : Fields) (table : ZipMap),
    loadLines (first ++ second) fields table =
      (loadLines first fields table).andThen fun state => loadLines second state.1 state.2 := by
  induction first with
  | nil => intro second fields table; rfl
  | cons l rest ih =>
    intro second fields table
    show (processLine l fields table).andThen
        (fun state => loadLines (rest ++ second) state.1 state.2) =
      ((processLine l fields table).andThen fun state => loadLines rest state.1 state.2).andThen
        fun state => loadLines second state.1 state.2
    cases processLine l fields table with
    | done state => exact ih second state.1 state.2
    | fault f => rfl

theorem loadLines_fits (lines : List (List Char)) :
    ∀ (fields : Fields) (table : ZipMap), fields.length = 6 →
    (∀ l ∈ lines, fitsFields l) →
    ∃ fields' table', fields'.length = 6 ∧
      loadLines lines fields table = .done (fields', table') := by
  induction lines with
  | nil =>
    intro fields table hlen _
    exact ⟨fields, table, hlen, rfl⟩
  | cons l rest ih =>
    intro fields table hlen h
    have hstep := processLine_eq l fields table (h l (List.mem_cons_self _ _))
    obtain ⟨fields', table', hlen', hrest⟩ := ih (storeAll (tokens l) 0 fields)
      (table.assign (atoi (fieldAt (storeAll (tokens l) 0 fields) 0))
        ⟨ConvertStringToDouble (fieldAt (storeAll (tokens l) 0 fields) 2),
         ConvertStringToDouble (fieldAt (storeAll (tokens l) 0 fields) 3)⟩)
      (by rw [storeAll_length]; exact hlen)
      (fun l' h' => h l' (List.mem_cons_of_mem _ h'))
    exact ⟨fields', table', hlen', by simp only [loadLines, hstep, Run.andThen, hrest]⟩

/-- C10 (as amended): take an opened file and a line of it, as fgets delivers
it, that splits into four to six fields (the non-empty fields strtok finds),
every field shorter than 32 bytes with the newline that stays on the last
field counted; the lines before it split into at most six such fields. If no
number can be extracted from the third field of the line (as for "abc"), then
once the loop has handled the line the record of its postal code is latitude 0
with the longitude converted from the fourth field, and the load goes on from
there with every following line of the file. -/
theorem LoadZipCodes_malformed_latitude (env : Env) (filePath stream : List Char)
    (table : ZipMap) (pre post : List (List Char)) (line : List Char)
    (hpath : filePath ≠ []) (hopen : env.fopen filePath = .ok stream)
    (hlines : fileLines stream = pre ++ line :: post)
    (hpre : ∀ l ∈ pre, fitsFields l)
    (hfit : fitsFields line) (hfour : 4 ≤ (tokens line).length)
    (hbad : extractDouble ((tokens line).getD 2 []) = none) :
    ∃ fields1 table1,
      loadLines (pre ++ [line]) zeroFields table = .done (fields1, table1) ∧
      (GetLatAndLon (lineKey line) table1).1 =
        ⟨0, ConvertStringToDouble ((tokens line).getD 3 [])⟩ ∧
      LoadZipCodes env filePath table =
        (loadLines post fields1 table1).andThen fun state =>
          .done ((true, "Success".toList), state.2) := by
  have hnul : NUL ∉ line :=
    fileLines_no_NUL stream line (by rw [hlines]; simp)
  obtain ⟨fields0, table0, hlen0, hload0⟩ := loadLines_fits pre zeroFields table rfl hpre
  have hstep := processLine_full line fields0 table0 hlen0 hnul hfit hfour
  have hprefix : loadLines (pre ++ [line]) zeroFields table =
      .done (storeAll (tokens line) 0 fields0,
        table0.assign (lineKey line) (lineLatLon line)) := by
    rw [loadLines_append, hload0]
    simp only [Run.andThen, loadLines, hstep]
  refine ⟨_, _, hprefix, ?_, ?_⟩
  · show lookup (table0.assign (lineKey line) (lineLatLon line)) (lineKey line) = _
    rw [lookup_assign_same]
    unfold lineLatLon ConvertStringToDouble
    rw [hbad]
    rfl
  · rw [LoadZipCodes_opened env filePath stream table hpath hopen, hlines]
    have hsplit : pre ++ line :: post = (pre ++ [line]) ++ post := by simp
    rw [hsplit, loadLines_append (pre ++ [line]) post, hprefix]
    rfl

/-- C10 at the line "10001,City,abc,-74.0,NY" followed by the line of 94040:
10001 is recorded as (0, -74), and 94040 is loaded after it. -/
theorem LoadZipCodes_malformed_latitude_witness :
    (∃ fields1 table1,
      loadLines ([] ++ ["10001,City,abc,-74.0,NY\n".toList]) zeroFields ZipMap.clear =
        .done (fields1, table1) ∧
      (GetLatAndLon (lineKey "10001,City,abc,-74.0,NY\n".toList) table1).1 =
        ⟨0, ConvertStringToDouble ((tokens "10001,City,abc,-74.0,NY\n".toList).getD 3 [])⟩ ∧
      LoadZipCodes
          (Env.single "10001,City,abc,-74.0,NY\n94040,Mountain View,37.3861,-122.0839,CA\n")
          "zips.csv".toList ZipMap.clear =
        (loadLines ["94040,Mountain View,37.3861,-122.0839,CA\n".toList] fields1 table1).andThen
          fun state => .done ((true, "Success".toList), state.2)) ∧
    (LoadZipCodes
        (Env.single "10001,City,abc,-74.0,NY\n94040,Mountain View,37.3861,-122.0839,CA\n")
        "zips.csv".toList ZipMap.clear).andThen
        (fun r => .done (r.1, (GetLatAndLon 10001 r.2).1, (GetLatAndLon 94040 r.2).1)) =
      .done ((true, "Success".toList), ⟨0, mkRat (-74) 1⟩,
        ⟨nearestDouble (mkRat 373861 10000), nearestDouble (mkRat (-1220839) 10000)⟩) :=
  ⟨LoadZipCodes_malformed_latitude
    (Env.single "10001,City,abc,-74.0,NY\n94040,Mountain View,37.3861,-122.0839,CA\n")
    "zips.csv".toList
    "10001,City,abc,-74.0,NY\n94040,Mountain View,37.3861,-122.0839,CA\n".toList
    ZipMap.clear [] ["94040,Mountain View,37.3861,-122.0839,CA\n".toList]
    "10001,City,abc,-74.0,NY\n".toList
    (by decide) rfl (by decide) (by decide) (by decide) (by decide) (by decide),
   by decide⟩

/-- C10 as stated fails: "40.7 N" is not a well-formed number, and the
latitude recorded for 10001 is the double of 40.7, the number at the start of
the text, not 0. -/
theorem LoadZipCodes_malformed_latitude_counterexample :
    (LoadZipCodes (Env.single "10001,City,40.7 N,-74.0,NY\n") "zips.csv".toList
        ZipMap.clear).andThen (fun r => .done (r.1, (GetLatAndLon 10001 r.2).1)) =
      .done ((true, "Success".toList), ⟨nearestDouble (mkRat 407 10), mkRat (-74) 1⟩) ∧
    nearestDouble (mkRat 407 10) ≠ 0 := by
  decide

/-! ## Reading numbers -/

theorem takeWhile_append_stop (p : Char → Bool) (run rest : List Char)
    (hrun : ∀ c ∈ run, p c = true) (hstop : ∀ c ∈ rest.head?, p c = false) :
    (run ++ rest).takeWhile p = run ∧ (run ++ rest).dropWhile p = rest := by
  induction run with
  | nil =>
    cases rest with
    | nil => simp
    | cons c cs =>
      have hc : p c = false := hstop c (by simp)
      simp [List.takeWhile_cons, List.dropWhile_cons, hc]
  | cons d ds ih =>
    have hd : p d = true := hrun d (List.mem_cons_self _ _)
    have := ih (fun c hc => hrun c (List.mem_cons_of_mem _ hc))
    simp [List.takeWhile_cons, List.dropWhile_cons, hd, this.1, this.2]

theorem decimalValue_append (a b : List Char) :
    decimalValue (a ++ b) = decimalValue a * 10 ^ b.length + decimalValue b := by
  have hgen : ∀ (b : List Char) (acc : Nat),
      List.foldl (fun acc c => acc * 10 + (c.toNat - 48)) acc b =
        acc * 10 ^ b.length + List.foldl (fun acc c => acc * 10 + (c.toNat - 48)) 0 b := by
    intro b
    induction b with
    | nil => intro acc; simp
    | cons c cs ih =>
      intro acc
      simp only [List.foldl_cons, List.length_cons]
      rw [ih (acc * 10 + (c.toNat - 48)), ih (0 * 10 + (c.toNat - 48))]
      ring
  unfold decimalValue
  rw [List.foldl_append, hgen b]

theorem decimalValue_eq_ofDigits (s : List Char) :
    decimalValue s = Nat.ofDigits 10 ((s.map fun c => c.toNat - 48).reverse) := by
  induction s using List.reverseRecOn with
  | nil => rfl
  | append_singleton s c ih =>
    rw [decimalValue_append, ih]
    simp [decimalValue, Nat.ofDigits_cons]
    ring

theorem isdigit_not_sign (c : Char) (h : isdigit c = true) :
    c ≠ '-' ∧ c ≠ '+' ∧ isspace c = false := by
  refine ⟨?_, ?_, ?_⟩
  · rintro rfl; revert h; decide
  · rintro rfl; revert h; decide
  · cases hs : isspace c with
    | false => rfl
    | true =>
      exfalso
      simp only [isspace, Bool.or_eq_true, beq_iff_eq] at hs
      rcases hs with ((((rfl | rfl) | rfl) | rfl) | rfl) | rfl <;> revert h <;> decide

theorem isspace_stops (c : Char) (h : isspace c = true) :
    isdigit c = false ∧ c ≠ '.' ∧ (c == 'e' || c == 'E') = false ∧ c ≠ ',' ∧ c ≠ NUL := by
  simp only [isspace, Bool.or_eq_true, beq_iff_eq] at h
  rcases h with ((((rfl | rfl) | rfl) | rfl) | rfl) | rfl <;> decide

theorem atoi_digits (code : List Char) (hne : code ≠ []) (hdig : allDigits code)
    (hrange : decimalValue code < 2 ^ 31) : atoi code = decimalValue code := by
  obtain ⟨d, ds, rfl⟩ := List.exists_cons_of_ne_nil hne
  have hd := isdigit_not_sign d (hdig d (List.mem_cons_self _ _))
  have hdrop : (d :: ds).dropWhile isspace = d :: ds := by
    simp [List.dropWhile_cons, hd.2.2]
  have hsign : takeSign (d :: ds) = (false, d :: ds) := by
    simp [takeSign, hd.1, hd.2.1]
  have htake : (d :: ds).takeWhile isdigit = d :: ds := by
    have := (takeWhile_append_stop isdigit (d :: ds) [] hdig (by simp)).1
    simpa using this
  unfold atoi strtol toInt32
  rw [hdrop, hsign]
  simp only [htake]
  have h1 : min ((decimalValue (d :: ds) : Nat) : Int) (2 ^ 63 - 1) = decimalValue (d :: ds) := by
    apply min_eq_left
    have : ((decimalValue (d :: ds) : Nat) : Int) < 2 ^ 31 := by exact_mod_cast hrange
    omega
  simp only [Bool.false_eq_true, if_false, h1]
  have : ((decimalValue (d :: ds) : Nat) : Int) < 2 ^ 31 := by exact_mod_cast hrange
  omega

theorem mkRat_decimal (negative : Bool) (whole frac : List Char) :
    mkRat ((if negative then -((decimalValue (whole ++ frac) : Nat) : Int)
        else ((decimalValue (whole ++ frac) : Nat) : Int)) * ((10 ^ 0 : Nat) : Int))
      (10 ^ frac.length) = decimalNumber negative whole frac := by
  have hpow : ((10 : ℚ) ^ frac.length) ≠ 0 := pow_ne_zero _ (by norm_num)
  rw [Rat.mkRat_eq_div, decimalValue_append]
  unfold decimalNumber
  cases negative
  · simp only [Bool.false_eq_true, if_false]
    push_cast
    field_simp
  · simp only [if_true]
    push_cast
    field_simp

theorem readFraction_decimal (frac tail : List Char) (hfd : allDigits frac)
    (htail : ∀ c ∈ tail, isspace c = true) :
    readFraction ((if frac.isEmpty then [] else '.' :: frac) ++ tail) = (frac, tail) := by
  have hstop : ∀ c ∈ tail.head?, isdigit c = false := by
    intro c hc
    exact (isspace_stops c (htail c (List.mem_of_mem_head? hc))).1
  cases frac with
  | nil =>
    cases tail with
    | nil => rfl
    | cons c cs =>
      have hc := (isspace_stops c (htail c (List.mem_cons_self _ _))).2.1
      simp [readFraction, hc]
  | cons d ds =>
    have h := takeWhile_append_stop isdigit (d :: ds) tail hfd hstop
    simp only [List.isEmpty_cons, Bool.false_eq_true, if_false, List.cons_append, readFraction,
      if_true]
    rw [← List.cons_append, h.1, h.2]

theorem readExponent_space (tail : List Char) (htail : ∀ c ∈ tail, isspace c = true) :
    readExponent tail = some 0 := by
  cases tail with
  | nil => rfl
  | cons c cs =>
    have hc := (isspace_stops c (htail c (List.mem_cons_self _ _))).2.2.1
    simp only [readExponent, hc]
    rfl

theorem extractDouble_decimalText (negative : Bool) (whole frac tail : List Char)
    (hw : whole ≠ []) (hwd : allDigits whole) (hfd : allDigits frac)
    (htail : ∀ c ∈ tail, isspace c = true) :
    extractDouble (decimalText negative whole frac ++ tail) =
      some (nearestDouble (decimalNumber negative whole frac)) := by
  obtain ⟨d, ds, rfl⟩ := List.exists_cons_of_ne_nil hw
  have hd := isdigit_not_sign d (hwd d (List.mem_cons_self _ _))
  have hsigned : takeSign ((decimalText negative (d :: ds) frac ++ tail).dropWhile isspace) =
      (negative, (d :: ds) ++ ((if frac.isEmpty then [] else '.' :: frac) ++ tail)) := by
    cases negative
    · simp [decimalText, List.dropWhile_cons, hd.2.2, takeSign, hd.1, hd.2.1]
    · have hminus : isspace '-' = false := by decide
      simp [decimalText, List.dropWhile_cons, hminus, takeSign]
  have hstop : ∀ c ∈ ((if frac.isEmpty then [] else '.' :: frac) ++ tail).head?,
      isdigit c = false := by
    intro c hc
    cases frac with
    | nil =>
      simp only [List.isEmpty_nil, if_true, List.nil_append] at hc
      exact (isspace_stops c (htail c (List.mem_of_mem_head? hc))).1
    | cons f fs =>
      simp only [List.isEmpty_cons, Bool.false_eq_true, if_false, List.cons_append,
        List.head?_cons, Option.mem_def, Option.some.injEq] at hc
      subst hc
      decide
  have hwhole := takeWhile_append_stop isdigit (d :: ds) _ hwd hstop
  unfold extractDouble
  simp only [hsigned, hwhole.1, hwhole.2, readFraction_decimal frac tail hfd htail,
    readExponent_space tail htail, List.isEmpty_cons, Bool.false_and, Bool.false_eq_true,
    if_false]
  have hscale1 : ((0 : Int) - (frac.length : Int)).toNat = 0 := by omega
  have hscale2 : (-((0 : Int) - (frac.length : Int))).toNat = frac.length := by omega
  rw [hscale1, hscale2]
  exact congrArg (fun q => some (nearestDouble q)) (mkRat_decimal negative (d :: ds) frac)

theorem ConvertStringToDouble_decimalText (negative : Bool) (whole frac tail : List Char)
    (hw : whole ≠ []) (hwd : allDigits whole) (hfd : allDigits frac)
    (htail : ∀ c ∈ tail, isspace c = true) :
    ConvertStringToDouble (decimalText negative whole frac ++ tail) =
      nearestDouble (decimalNumber negative whole frac) := by
  unfold ConvertStringToDouble
  rw [extractDouble_decimalText negative whole frac tail hw hwd hfd htail]
  rfl

/-! ## Rounding to binary64 -/

theorem bitLength_zero (fuel : Nat) : bitLength fuel 0 = 0 := by
  cases fuel <;> simp [bitLength]

theorem bitLength_spec (fuel : Nat) : ∀ n, n ≤ fuel →
    n < 2 ^ bitLength fuel n ∧ (0 < n → 2 ^ bitLength fuel n ≤ 2 * n) := by
  induction fuel with
  | zero =>
    intro n hn
    have h0 : n = 0 := by omega
    subst h0
    simp [bitLength]
  | succ fuel ih =>
    intro n hn
    by_cases h0 : n = 0
    · subst h0
      simp [bitLength]
    · obtain ⟨h1, h2⟩ := ih (n / 2) (by omega)
      have hb : bitLength (fuel + 1) n = bitLength fuel (n / 2) + 1 := by
        simp [bitLength, h0]
      rw [hb, pow_succ]
      refine ⟨by omega, fun _ => ?_⟩
      by_cases hhalf : n / 2 = 0
      · rw [hhalf, bitLength_zero]
        omega
      · have := h2 (by omega)
        omega

theorem two_zpow_toNat (k : Int) :
    (2 : ℚ) ^ k = (2 : ℚ) ^ k.toNat / (2 : ℚ) ^ (-k).toNat := by
  rcases le_total 0 k with h | h
  · obtain ⟨m, rfl⟩ := Int.eq_ofNat_of_zero_le h
    have h2 : (-(m : Int)).toNat = 0 := by omega
    rw [h2]
    simp
  · obtain ⟨m, hm⟩ := Int.eq_ofNat_of_zero_le (neg_nonneg.2 h)
    have hk : k = -(m : Int) := by omega
    subst hk
    have h1 : (-(m : Int)).toNat = 0 := by omega
    have h2 : (-(-(m : Int))).toNat = m := by omega
    rw [h1, h2]
    simp [zpow_neg]

theorem floorLog2_spec (n d : Nat) (hn : 0 < n) (hd : 0 < d) :
    (2 : ℚ) ^ floorLog2 n d ≤ (n : ℚ) / d ∧ (n : ℚ) / d < (2 : ℚ) ^ (floorLog2 n d + 1) := by
  obtain ⟨ha1, ha2⟩ := bitLength_spec n n (le_refl _)
  obtain ⟨hb1, hb2⟩ := bitLength_spec d d (le_refl _)
  have ha2 := ha2 hn
  have hb2 := hb2 hd
  have hdq : (0 : ℚ) < d := by exact_mod_cast hd
  have hA1 : (n : ℚ) < 2 ^ bitLength n n := by exact_mod_cast ha1
  have hA2 : (2 : ℚ) ^ bitLength n n ≤ 2 * n := by exact_mod_cast ha2
  have hB1 : (d : ℚ) < 2 ^ bitLength d d := by exact_mod_cast hb1
  have hB2 : (2 : ℚ) ^ bitLength d d ≤ 2 * d := by exact_mod_cast hb2
  have hpa : (0 : ℚ) < 2 ^ bitLength n n := by positivity
  have hpb : (0 : ℚ) < 2 ^ bitLength d d := by positivity
  have hk : (2 : ℚ) ^ ((bitLength n n : Int) - (bitLength d d : Int)) =
      2 ^ bitLength n n / 2 ^ bitLength d d := by
    rw [zpow_sub₀ (by norm_num), zpow_natCast, zpow_natCast]
  have htest : (d * 2 ^ ((bitLength n n : Int) - (bitLength d d : Int)).toNat ≤
      n * 2 ^ (-((bitLength n n : Int) - (bitLength d d : Int))).toNat) ↔
      (2 : ℚ) ^ ((bitLength n n : Int) - (bitLength d d : Int)) ≤ (n : ℚ) / d := by
    rw [two_zpow_toNat, div_le_div_iff₀ (by positivity) hdq]
    constructor
    · intro h
      have : ((d * 2 ^ ((bitLength n n : Int) - (bitLength d d : Int)).toNat : Nat) : ℚ) ≤
          ((n * 2 ^ (-((bitLength n n : Int) - (bitLength d d : Int))).toNat : Nat) : ℚ) := by
        exact_mod_cast h
      push_cast at this
      linarith
    · intro h
      have : ((d * 2 ^ ((bitLength n n : Int) - (bitLength d d : Int)).toNat : Nat) : ℚ) ≤
          ((n * 2 ^ (-((bitLength n n : Int) - (bitLength d d : Int))).toNat : Nat) : ℚ) := by
        push_cast
        linarith
      exact_mod_cast this
  unfold floorLog2
  simp only
  split_ifs with h
  · refine ⟨htest.1 h, ?_⟩
    rw [zpow_add₀ (by norm_num), hk, zpow_one, div_lt_iff₀ hdq, div_mul_eq_mul_div,
      div_mul_eq_mul_div, lt_div_iff₀ hpb]
    nlinarith
  · have h' : (n : ℚ) / d < (2 : ℚ) ^ ((bitLength n n : Int) - (bitLength d d : Int)) := by
      by_contra hc
      exact h (htest.2 (not_lt.1 hc))
    refine ⟨?_, by simpa using h'⟩
    rw [zpow_sub₀ (by norm_num), hk, zpow_one, le_div_iff₀ hdq, div_mul_eq_mul_div,
      div_mul_eq_mul_div, div_le_iff₀ (by norm_num), div_le_iff₀ hpb]
    nlinarith

theorem roundHalfEven_spec (n d : Nat) (hd : 0 < d) :
    |((roundHalfEven n d : Nat) : ℚ) - (n : ℚ) / d| ≤ 1 / 2 := by
  have hdq : (0 : ℚ) < d := by exact_mod_cast hd
  have hsplit : (n : ℚ) / d = ((n / d : Nat) : ℚ) + ((n % d : Nat) : ℚ) / d := by
    have h := Nat.div_add_mod n d
    have h' : (n : ℚ) = d * ((n / d : Nat) : ℚ) + ((n % d : Nat) : ℚ) := by exact_mod_cast h.symm
    field_simp
    linarith
  have hr : ((n % d : Nat) : ℚ) < d := by exact_mod_cast Nat.mod_lt n hd
  have hr0 : (0 : ℚ) ≤ ((n % d : Nat) : ℚ) := by positivity
  have hfrac0 : (0 : ℚ) ≤ ((n % d : Nat) : ℚ) / d := by positivity
  have hfrac1 : ((n % d : Nat) : ℚ) / d < 1 := by rw [div_lt_one hdq]; exact hr
  unfold roundHalfEven
  simp only
  rw [hsplit]
  have hlow : 2 * (n % d) < d → ((n % d : Nat) : ℚ) / d ≤ 1 / 2 := by
    intro h
    have : (2 : ℚ) * ((n % d : Nat) : ℚ) < d := by exact_mod_cast h
    rw [div_le_iff₀ hdq]
    linarith
  have hhigh : d < 2 * (n % d) → (1 : ℚ) / 2 ≤ ((n % d : Nat) : ℚ) / d := by
    intro h
    have : (d : ℚ) < 2 * ((n % d : Nat) : ℚ) := by exact_mod_cast h
    rw [le_div_iff₀ hdq]
    linarith
  have hmid : ¬ 2 * (n % d) < d → ¬ d < 2 * (n % d) → ((n % d : Nat) : ℚ) / d = 1 / 2 := by
    intro h1 h2
    have h3 : 2 * (n % d) = d := by omega
    have : (2 : ℚ) * ((n % d : Nat) : ℚ) = d := by exact_mod_cast h3
    rw [div_eq_iff (ne_of_gt hdq)]
    linarith
  split_ifs with h1 h2 h3
  · have := hlow h1
    rw [abs_le]
    constructor <;> linarith
  · have := hhigh h2
    rw [abs_le]
    push_cast
    constructor <;> linarith
  · have := hmid h1 h2
    rw [abs_le]
    constructor <;> linarith
  · have := hmid h1 h2
    rw [abs_le]
    push_cast
    constructor <;> linarith

theorem abs_eq_natAbs_div (q : ℚ) : |q| = (q.num.natAbs : ℚ) / (q.den : ℚ) := by
  have hden : (0 : ℚ) < q.den := by exact_mod_cast q.den_pos
  have h1 : q = (q.num : ℚ) / (q.den : ℚ) := (Rat.num_div_den q).symm
  have h2 : ((q.num.natAbs : Nat) : ℚ) = |(q.num : ℚ)| := by
    rw [Nat.cast_natAbs, Int.cast_abs]
  rw [h2]
  conv_lhs => rw [h1]
  rw [abs_div, abs_of_pos hden]

/-- Between the smallest normal double and the largest finite one the rounding
moves a number by at most its magnitude divided by 2^53. -/
theorem nearestDouble_near (q : ℚ) (hlow : (2 : ℚ) ^ (-1022 : Int) ≤ |q|)
    (hhigh : |q| < 2 ^ (1024 : Int) - 2 ^ (970 : Int)) :
    |nearestDouble q - q| ≤ |q| / 2 ^ 53 := by
  have hq0 : q ≠ 0 := by
    intro h
    rw [h, abs_zero] at hlow
    exact absurd hlow (not_le.2 (by positivity))
  have hnum : q.num ≠ 0 := fun h => hq0 (Rat.num_eq_zero.1 h)
  have hn : 0 < q.num.natAbs := Int.natAbs_pos.2 hnum
  have hd : 0 < q.den := q.den_pos
  have habs := abs_eq_natAbs_div q
  obtain ⟨hfl1, hfl2⟩ := floorLog2_spec q.num.natAbs q.den hn hd
  rw [← habs] at hfl1 hfl2
  generalize hfl : floorLog2 q.num.natAbs q.den = fl at hfl1 hfl2
  have hflLow : -1022 ≤ fl := by
    by_contra hc
    have h1 : fl + 1 ≤ -1022 := by omega
    have h2 : (2 : ℚ) ^ (fl + 1) ≤ 2 ^ (-1022 : Int) := zpow_le_zpow_right₀ (by norm_num) h1
    exact absurd (lt_of_lt_of_le hfl2 (h2.trans hlow)) (lt_irrefl _)
  have h970 : (0 : ℚ) < 2 ^ (970 : Int) := by positivity
  have hflHigh : fl ≤ 1023 := by
    by_contra hc
    have h1 : (1024 : Int) ≤ fl := by omega
    have h2 : (2 : ℚ) ^ (1024 : Int) ≤ 2 ^ fl := zpow_le_zpow_right₀ (by norm_num) h1
    have h3 : |q| < 2 ^ (1024 : Int) := lt_of_lt_of_le hhigh (sub_le_self _ h970.le)
    exact absurd (lt_of_lt_of_le h3 (h2.trans hfl1)) (lt_irrefl _)
  have he : max (fl - 52) (-1074) = fl - 52 := max_eq_left (by omega)
  have hpe : (0 : ℚ) < 2 ^ (fl - 52) := by positivity
  have hx : ((q.num.natAbs * 2 ^ (-(fl - 52)).toNat : Nat) : ℚ) /
      ((q.den * 2 ^ (fl - 52).toNat : Nat) : ℚ) = |q| / 2 ^ (fl - 52) := by
    rw [two_zpow_toNat (fl - 52), habs]
    push_cast
    field_simp
  have hround := roundHalfEven_spec (q.num.natAbs * 2 ^ (-(fl - 52)).toNat)
    (q.den * 2 ^ (fl - 52).toNat) (by positivity)
  rw [hx] at hround
  generalize hm : roundHalfEven (q.num.natAbs * 2 ^ (-(fl - 52)).toNat)
    (q.den * 2 ^ (fl - 52).toNat) = m at hround
  have hmag : mkRat ((m * 2 ^ (fl - 52).toNat : Nat) : Int) (2 ^ (-(fl - 52)).toNat) =
      (m : ℚ) * 2 ^ (fl - 52) := by
    rw [Rat.mkRat_eq_div, two_zpow_toNat (fl - 52)]
    push_cast
    ring
  -- the rounded value is below 2^1024
  have hfinite : ¬ (971 < fl - 52 ∨ (fl - 52 = 971 ∧ 2 ^ 53 ≤ m)) := by
    rintro (h | ⟨h1, h2⟩)
    · omega
    · have hfl' : fl = 1023 := by omega
      subst hfl'
      have hm53 : (2 : ℚ) ^ 53 ≤ m := by exact_mod_cast h2
      have hsplit : (2 : ℚ) ^ (1024 : Int) - 2 ^ (970 : Int) =
          ((2 : ℚ) ^ 53 - 1 / 2) * 2 ^ ((1023 : Int) - 52) := by
        have e1 : (2 : ℚ) ^ (1024 : Int) = 2 ^ (53 : Int) * 2 ^ ((1023 : Int) - 52) := by
          rw [← zpow_add₀ (by norm_num)]
          norm_num
        have e2 : (2 : ℚ) ^ (970 : Int) = 2 ^ (-1 : Int) * 2 ^ ((1023 : Int) - 52) := by
          rw [← zpow_add₀ (by norm_num)]
          norm_num
        have e3 : (2 : ℚ) ^ (53 : Int) = 2 ^ 53 := by norm_cast
        have e4 : (2 : ℚ) ^ (-1 : Int) = 1 / 2 := by norm_num
        rw [e1, e2, e3, e4]
        ring
      rw [hsplit] at hhigh
      have hxlt : |q| / 2 ^ ((1023 : Int) - 52) < 2 ^ 53 - 1 / 2 := by
        rw [div_lt_iff₀ hpe]
        exact hhigh
      have := (abs_le.1 hround).2
      linarith
  have hval : nearestDouble q =
      if q.num < 0 then -((m : ℚ) * 2 ^ (fl - 52)) else (m : ℚ) * 2 ^ (fl - 52) := by
    unfold nearestDouble
    simp only [hnum, if_false, hfl, he, hm, hfinite, hmag]
  have hE : (2 : ℚ) ^ (fl - 52) = 2 ^ fl / 2 ^ 52 := by
    rw [zpow_sub₀ (by norm_num)]
    norm_cast
  have hclose : abs ((m : ℚ) * 2 ^ (fl - 52) - abs q) ≤ abs q / 2 ^ 53 := by
    have h1 : (m : ℚ) * 2 ^ (fl - 52) - |q| = 2 ^ (fl - 52) * ((m : ℚ) - |q| / 2 ^ (fl - 52)) := by
      field_simp
    rw [h1, abs_mul, abs_of_pos hpe]
    have h2 : (2 : ℚ) ^ (fl - 52) * abs ((m : ℚ) - abs q / 2 ^ (fl - 52)) ≤ 2 ^ (fl - 52) * (1 / 2) :=
      mul_le_mul_of_nonneg_left hround hpe.le
    have h3 : (2 : ℚ) ^ (fl - 52) * (1 / 2) = 2 ^ fl / 2 ^ 53 := by
      rw [hE]
      norm_num
      ring
    have h4 : (2 : ℚ) ^ fl / 2 ^ 53 ≤ |q| / 2 ^ 53 :=
      div_le_div_of_nonneg_right hfl1 (by positivity)
    linarith
  rw [hval]
  split_ifs with hneg
  · have hqneg : q < 0 := Rat.num_neg.1 hneg
    have h1 : -((m : ℚ) * 2 ^ (fl - 52)) - q = -((m : ℚ) * 2 ^ (fl - 52) - |q|) := by
      rw [abs_of_neg hqneg]
      ring
    rw [h1, abs_neg]
    exact hclose
  · have hqpos : 0 ≤ q := Rat.num_nonneg.1 (not_lt.1 hneg)
    have h1 : (m : ℚ) * 2 ^ (fl - 52) - q = (m : ℚ) * 2 ^ (fl - 52) - |q| := by
      rw [abs_of_nonneg hqpos]
    rw [h1]
    exact hclose

theorem nearestDouble_zero : nearestDouble 0 = 0 := by decide

set_option exponentiation.threshold 2000 in
set_option maxRecDepth 8000 in
/-- The conversion at the limits of binary64: a decimal that is no double is
rounded to the nearest one (0.1, 12345678901234567.1), a tie goes to the even
neighbour (2^53 + 1 and 2^53 + 3), a number too large for a double gives the
largest finite double, a number below half the smallest subnormal gives 0,
and a text whose exponent has no digits gives 0. -/
theorem ConvertStringToDouble_examples :
    ConvertStringToDouble "0.1".toList = mkRat 3602879701896397 (2 ^ 55) ∧
    ConvertStringToDouble "12345678901234567.1".toList = mkRat 12345678901234568 1 ∧
    ConvertStringToDouble "9007199254740993".toList = mkRat 9007199254740992 1 ∧
    ConvertStringToDouble "9007199254740995".toList = mkRat 9007199254740996 1 ∧
    ConvertStringToDouble "1e400".toList = maxDouble ∧
    ConvertStringToDouble "-1e400".toList = -maxDouble ∧
    ConvertStringToDouble "1e-400".toList = 0 ∧
    ConvertStringToDouble "5e-324".toList = mkRat 1 (2 ^ 1074) ∧
    ConvertStringToDouble "40.7E".toList = 0 ∧
    ConvertStringToDouble "-0.0".toList = 0 := by
  decide

theorem decimalValue_lt (s : List Char) (h : allDigits s) : decimalValue s < 10 ^ s.length := by
  induction s using List.reverseRecOn with
  | nil => simp [decimalValue]
  | append_singleton s c ih =>
    have hs : allDigits s := fun x hx => h x (List.mem_append_left _ hx)
    have hc : isdigit c = true := h c (by simp)
    have hc' : c.toNat - 48 < 10 := by
      unfold isdigit at hc
      have := of_decide_eq_true hc
      omega
    have := ih hs
    rw [decimalValue_append]
    have h1 : decimalValue [c] = c.toNat - 48 := by simp [decimalValue]
    rw [h1]
    simp only [List.length_append, List.length_singleton, pow_succ, pow_zero, one_mul]
    omega

/-- A decimal number written with at most 31 digits is 0 or lies in the range
of the normal doubles, so its double is within its magnitude divided by 2^53
of it. -/
theorem decimalNumber_near (negative : Bool) (whole frac : List Char) (hwd : allDigits whole)
    (hfd : allDigits frac) (hlen : whole.length + frac.length ≤ 31) :
    |nearestDouble (decimalNumber negative whole frac) - decimalNumber negative whole frac| ≤
      |decimalNumber negative whole frac| / 2 ^ 53 := by
  have hW := decimalValue_lt whole hwd
  have hF := decimalValue_lt frac hfd
  have hpow : (0 : ℚ) < 10 ^ frac.length := by positivity
  have habs : |decimalNumber negative whole frac| =
      (decimalValue whole : ℚ) + (decimalValue frac : ℚ) / 10 ^ frac.length := by
    have hnn : (0 : ℚ) ≤ (decimalValue whole : ℚ) + (decimalValue frac : ℚ) / 10 ^ frac.length := by
      positivity
    unfold decimalNumber
    cases negative
    · simp only [Bool.false_eq_true, if_false, one_mul]
      exact abs_of_nonneg hnn
    · simp only [if_true, neg_mul, one_mul, abs_neg]
      exact abs_of_nonneg hnn
  by_cases hzero : decimalNumber negative whole frac = 0
  · rw [hzero, nearestDouble_zero]
    simp
  have hpos : 0 < |decimalNumber negative whole frac| := abs_pos.2 hzero
  have hWq : (decimalValue whole : ℚ) < 10 ^ whole.length := by exact_mod_cast hW
  have hFq : (decimalValue frac : ℚ) < 10 ^ frac.length := by exact_mod_cast hF
  have hfrac1 : (decimalValue frac : ℚ) / 10 ^ frac.length < 1 := by
    rw [div_lt_one hpow]; exact hFq
  have hw31 : (10 : ℚ) ^ whole.length ≤ 10 ^ 31 :=
    pow_le_pow_right₀ (by norm_num) (by omega)
  have hf31 : (10 : ℚ) ^ frac.length ≤ 10 ^ 31 :=
    pow_le_pow_right₀ (by norm_num) (by omega)
  apply nearestDouble_near
  · -- at least 10^-31, which is above 2^-1022
    have hsmall : (2 : ℚ) ^ (-1022 : Int) ≤ 1 / 10 ^ 31 := by
      have h1 : (2 : ℚ) ^ (-1022 : Int) ≤ 2 ^ (-104 : Int) :=
        zpow_le_zpow_right₀ (by norm_num) (by norm_num)
      have h2 : (2 : ℚ) ^ (-104 : Int) ≤ 1 / 10 ^ 31 := by norm_num
      exact h1.trans h2
    refine hsmall.trans ?_
    rw [habs]
    by_cases hW0 : decimalValue whole = 0
    · have hF0 : decimalValue frac ≠ 0 := by
        intro hF0
        apply hzero
        unfold decimalNumber
        rw [hW0, hF0]
        simp
      have hF1 : (1 : ℚ) ≤ (decimalValue frac : ℚ) := by
        exact_mod_cast Nat.one_le_iff_ne_zero.2 hF0
      rw [hW0]
      simp only [Nat.cast_zero, zero_add]
      calc (1 : ℚ) / 10 ^ 31 ≤ 1 / 10 ^ frac.length :=
            one_div_le_one_div_of_le hpow hf31
        _ ≤ (decimalValue frac : ℚ) / 10 ^ frac.length :=
            div_le_div_of_nonneg_right hF1 hpow.le
    · have hW1 : (1 : ℚ) ≤ (decimalValue whole : ℚ) := by
        exact_mod_cast Nat.one_le_iff_ne_zero.2 hW0
      have hsmall1 : (1 : ℚ) / 10 ^ 31 ≤ 1 := by norm_num
      have hfrac0 : (0 : ℚ) ≤ (decimalValue frac : ℚ) / 10 ^ frac.length := by positivity
      linarith
  · -- below 10^31 + 1, which is below 2^1023
    have hbig : (10 : ℚ) ^ 31 + 1 ≤ 2 ^ (1024 : Int) - 2 ^ (970 : Int) := by
      have h1 : (10 : ℚ) ^ 31 + 1 ≤ 2 ^ (104 : Int) := by norm_num
      have h2 : (2 : ℚ) ^ (104 : Int) ≤ 2 ^ (1023 : Int) :=
        zpow_le_zpow_right₀ (by norm_num) (by norm_num)
      have h3 : (2 : ℚ) ^ (970 : Int) ≤ 2 ^ (1023 : Int) :=
        zpow_le_zpow_right₀ (by norm_num) (by norm_num)
      have h4 : (2 : ℚ) ^ (1024 : Int) = 2 ^ (1023 : Int) + 2 ^ (1023 : Int) := by
        have : (2 : ℚ) ^ (1024 : Int) = 2 ^ ((1023 : Int) + 1) := by norm_num
        rw [this, zpow_add₀ (by norm_num), zpow_one]
        ring
      generalize (2 : ℚ) ^ (1023 : Int) = A at h2 h3 h4
      generalize (2 : ℚ) ^ (1024 : Int) = B at h4 ⊢
      generalize (2 : ℚ) ^ (970 : Int) = C at h3 ⊢
      generalize (2 : ℚ) ^ (104 : Int) = D at h1 h2
      linarith
    refine lt_of_lt_of_le ?_ hbig
    rw [habs]
    linarith

/-! ## The fields of a well-formed line -/

theorem tokensFrom_fuel (n : Nat) :
    ∀ (m : Nat) (pending : Option (List Char × List Char)),
    (∀ t r, pending = some (t, r) → r.length < n ∧ r.length < m) →
    tokensFrom n pending = tokensFrom m pending := by
  induction n with
  | zero =>
    intro m pending h
    cases pending with
    | none => cases m <;> rfl
    | some p => exact absurd (h p.1 p.2 rfl).1 (Nat.not_lt_zero _)
  | succ n ih =>
    intro m pending h
    cases pending with
    | none => cases m <;> rfl
    | some p =>
      obtain ⟨t, r⟩ := p
      have hr := h t r rfl
      cases m with
      | zero => exact absurd hr.2 (Nat.not_lt_zero _)
      | succ m =>
        simp only [tokensFrom]
        rw [ih m (strtok ',' r)]
        intro t' r' h'
        have := (strtok_some ',' r t' r' h').1
        omega

theorem strtok_plain (f rest : List Char) (hf : plainField f)
    (hrest : rest = [] ∨ ∃ tail, rest = ',' :: tail) :
    strtok ',' (f ++ rest) = some (f, rest.drop 1) := by
  obtain ⟨c, cs, rfl⟩ := List.exists_cons_of_ne_nil hf.1
  have hc : c ≠ ',' := fun hh => hf.2 (by simp [hh])
  have hrun : ∀ x ∈ c :: cs, (fun y : Char => y != ',') x = true := by
    intro x hx
    have : x ≠ ',' := fun hh => hf.2 (hh ▸ hx)
    simpa using this
  have hstop : ∀ x ∈ rest.head?, (fun y : Char => y != ',') x = false := by
    intro x hx
    rcases hrest with rfl | ⟨tail, rfl⟩
    · simp at hx
    · simp only [List.head?_cons, Option.mem_def, Option.some.injEq] at hx
      subst hx
      simp
  have h := takeWhile_append_stop (fun y : Char => y != ',') (c :: cs) rest hrun hstop
  unfold strtok
  have hdrop : (c :: cs ++ rest).dropWhile (· == ',') = c :: (cs ++ rest) := by
    simp [List.dropWhile_cons, hc]
  rw [hdrop]
  simp only
  rw [← List.cons_append, h.1, h.2]

theorem tokens_plain_cons (f tail : List Char) (hf : plainField f) :
    tokens (f ++ ',' :: tail) = f :: tokens tail := by
  unfold tokens
  rw [strtok_plain f (',' :: tail) hf (Or.inr ⟨tail, rfl⟩)]
  have hlen : (f ++ ',' :: tail).length = (f.length + tail.length) + 1 := by
    simp only [List.length_append, List.length_cons]
    omega
  rw [hlen]
  simp only [tokensFrom, List.drop_one, List.tail_cons]
  rw [tokensFrom_fuel (f.length + tail.length) tail.length (strtok ',' tail)]
  intro t r h
  have := (strtok_some ',' tail t r h).1
  omega

theorem tokens_plain_single (f : List Char) (hf : plainField f) : tokens f = [f] := by
  have h := strtok_plain f [] hf (Or.inl rfl)
  simp only [List.append_nil, List.drop_nil] at h
  unfold tokens
  obtain ⟨c, cs, rfl⟩ := List.exists_cons_of_ne_nil hf.1
  rw [h]
  simp [tokensFrom, strtok]

theorem plainField_append (f terminator : List Char) (hf : plainField f)
    (hterm : ∀ c ∈ terminator, isspace c = true) : plainField (f ++ terminator) := by
  refine ⟨by simp [hf.1], ?_⟩
  intro h
  rcases List.mem_append.1 h with h | h
  · exact hf.2 h
  · exact (isspace_stops ',' (hterm ',' h)).2.2.2.1 rfl

theorem tokens_joinFields (fs : List (List Char)) (terminator : List Char)
    (hfs : ∀ f ∈ fs, plainField f) (hne : fs ≠ [])
    (hterm : ∀ c ∈ terminator, isspace c = true) :
    tokens (joinFields fs ++ terminator) = withTerminator fs terminator := by
  induction fs with
  | nil => exact absurd rfl hne
  | cons f rest ih =>
    cases rest with
    | nil =>
      simp only [joinFields, withTerminator]
      exact tokens_plain_single _
        (plainField_append f terminator (hfs f (List.mem_cons_self _ _)) hterm)
    | cons g gs =>
      simp only [joinFields, withTerminator, List.append_assoc, List.cons_append]
      rw [tokens_plain_cons f _ (hfs f (List.mem_cons_self _ _)),
        ih (fun x hx => hfs x (List.mem_cons_of_mem _ hx)) (by simp)]

theorem plainField_digits (code : List Char) (hne : code ≠ []) (hdig : allDigits code) :
    plainField code := by
  refine ⟨hne, fun h => ?_⟩
  have := hdig ',' h
  revert this
  decide

theorem plainField_decimalText (negative : Bool) (whole frac : List Char)
    (hw : whole ≠ []) (hwd : allDigits whole) (hfd : allDigits frac) :
    plainField (decimalText negative whole frac) := by
  have hcomma : isdigit ',' = false := by decide
  refine ⟨by simp [decimalText, hw], fun h => ?_⟩
  unfold decimalText at h
  rcases List.mem_append.1 h with h | h
  · rcases List.mem_append.1 h with h | h
    · cases negative
      · simp at h
      · simp at h
    · rw [hwd ',' h] at hcomma
      cases hcomma
  · cases frac with
    | nil => simp at h
    | cons f fs =>
      simp only [List.isEmpty_cons, Bool.false_eq_true, if_false, List.mem_cons] at h
      rcases h with h | h
      · revert h; decide
      · rw [hfd ',' (by simpa using h)] at hcomma
        cases hcomma

theorem withTerminator_length (fs : List (List Char)) (terminator : List Char) :
    (withTerminator fs terminator).length = fs.length := by
  induction fs with
  | nil => rfl
  | cons f rest ih =>
    cases rest with
    | nil => rfl
    | cons g gs =>
      simp only [withTerminator, List.length_cons] at ih ⊢
      omega

theorem withTerminator_short (fs : List (List Char)) (terminator : List Char) (bound : Nat)
    (h : ∀ f ∈ fs, f.length + terminator.length < bound) :
    ∀ t ∈ withTerminator fs terminator, t.length < bound := by
  induction fs with
  | nil => intro t ht; simp [withTerminator] at ht
  | cons f rest ih =>
    have hf := h f (List.mem_cons_self _ _)
    cases rest with
    | nil =>
      intro t ht
      simp only [withTerminator, List.mem_singleton] at ht
      subst ht
      simpa using hf
    | cons g gs =>
      intro t ht
      simp only [withTerminator, List.mem_cons] at ht
      rcases ht with rfl | ht
      · omega
      · exact ih (fun x hx => h x (List.mem_cons_of_mem _ hx)) t
          (by simpa [withTerminator] using ht)

theorem withTerminator_fits (fs : List (List Char)) (terminator : List Char) (bound : Nat)
    (h : ∀ f ∈ fs, f.length < bound)
    (hend : (fs.getLast?.getD []).length + terminator.length < bound) :
    ∀ t ∈ withTerminator fs terminator, t.length < bound := by
  induction fs with
  | nil => intro t ht; simp [withTerminator] at ht
  | cons f rest ih =>
    cases rest with
    | nil =>
      intro t ht
      simp only [withTerminator, List.mem_singleton] at ht
      subst ht
      simpa using hend
    | cons g gs =>
      intro t ht
      simp only [withTerminator, List.mem_cons] at ht
      rcases ht with rfl | ht
      · exact h t (List.mem_cons_self _ _)
      · exact ih (fun x hx => h x (List.mem_cons_of_mem _ hx))
          (by rw [List.getLast?_cons_cons] at hend; exact hend) t
          (by simpa [withTerminator] using ht)

theorem wellFormedLine_record (code name : List Char) (latNeg lonNeg : Bool)
    (latWhole latFrac lonWhole lonFrac : List Char) (more : List (List Char))
    (terminator : List Char)
    (hcode : code ≠ [] ∧ allDigits code ∧ decimalValue code < 2 ^ 31)
    (hname : plainField name)
    (hlat : latWhole ≠ [] ∧ allDigits latWhole ∧ allDigits latFrac)
    (hlon : lonWhole ≠ [] ∧ allDigits lonWhole ∧ allDigits lonFrac)
    (hmore : more.length ≤ 2 ∧ ∀ f ∈ more, plainField f)
    (hterm : ∀ c ∈ terminator, isspace c = true)
    (hshort : ∀ f ∈ code :: name :: decimalText latNeg latWhole latFrac ::
      decimalText lonNeg lonWhole lonFrac :: more, f.length < 32)
    (hend : (((code :: name :: decimalText latNeg latWhole latFrac ::
      decimalText lonNeg lonWhole lonFrac :: more).getLast?).getD []).length +
        terminator.length < 32) :
    fitsFields (joinFields (code :: name :: decimalText latNeg latWhole latFrac ::
        decimalText lonNeg lonWhole lonFrac :: more) ++ terminator) ∧
    4 ≤ (tokens (joinFields (code :: name :: decimalText latNeg latWhole latFrac ::
        decimalText lonNeg lonWhole lonFrac :: more) ++ terminator)).length ∧
    lineKey (joinFields (code :: name :: decimalText latNeg latWhole latFrac ::
        decimalText lonNeg lonWhole lonFrac :: more) ++ terminator) = decimalValue code ∧
    lineLatLon (joinFields (code :: name :: decimalText latNeg latWhole latFrac ::
        decimalText lonNeg lonWhole lonFrac :: more) ++ terminator) =
      ⟨nearestDouble (decimalNumber latNeg latWhole latFrac),
        nearestDouble (decimalNumber lonNeg lonWhole lonFrac)⟩ := by
  have hplain : ∀ f ∈ code :: name :: decimalText latNeg latWhole latFrac ::
      decimalText lonNeg lonWhole lonFrac :: more, plainField f := by
    intro f hf
    simp only [List.mem_cons] at hf
    rcases hf with rfl | rfl | rfl | rfl | hf
    · exact plainField_digits _ hcode.1 hcode.2.1
    · exact hname
    · exact plainField_decimalText _ _ _ hlat.1 hlat.2.1 hlat.2.2
    · exact plainField_decimalText _ _ _ hlon.1 hlon.2.1 hlon.2.2
    · exact hmore.2 f hf
  have htok := tokens_joinFields _ terminator hplain (by simp) hterm
  have hlen := withTerminator_length (code :: name :: decimalText latNeg latWhole latFrac ::
      decimalText lonNeg lonWhole lonFrac :: more) terminator
  have hnospace : ∀ c ∈ ([] : List Char), isspace c = true := by simp
  have hlatv := ConvertStringToDouble_decimalText latNeg latWhole latFrac [] hlat.1 hlat.2.1
    hlat.2.2 hnospace
  rw [List.append_nil] at hlatv
  refine ⟨⟨?_, ?_⟩, ?_, ?_, ?_⟩
  · rw [htok, hlen]
    simp only [List.length_cons]
    omega
  · rw [htok]
    exact withTerminator_fits _ terminator 32 hshort hend
  · rw [htok, hlen]
    simp only [List.length_cons]
    omega
  · unfold lineKey
    rw [htok]
    simp only [withTerminator, List.getD_cons_zero]
    exact atoi_digits code hcode.1 hcode.2.1 hcode.2.2
  · unfold lineLatLon
    rw [htok]
    cases more with
    | nil =>
      simp only [withTerminator, List.getD_cons_succ, List.getD_cons_zero, hlatv]
      rw [ConvertStringToDouble_decimalText lonNeg lonWhole lonFrac terminator hlon.1
        hlon.2.1 hlon.2.2 hterm]
    | cons g gs =>
      have hlonv := ConvertStringToDouble_decimalText lonNeg lonWhole lonFrac [] hlon.1
        hlon.2.1 hlon.2.2 hnospace
      rw [List.append_nil] at hlonv
      simp only [withTerminator, List.getD_cons_succ, List.getD_cons_zero, hlatv, hlonv]

/-! ## The round trip of a well-formed line: C3 -/

theorem decimalText_length (negative : Bool) (whole frac : List Char) :
    whole.length + frac.length ≤ (decimalText negative whole frac).length := by
  unfold decimalText
  cases frac with
  | nil => simp
  | cons f fs =>
    simp only [List.isEmpty_cons, Bool.false_eq_true, if_false, List.length_append,
      List.length_cons]
    omega


/-- The record of key k survives the lines that follow it: when every
following line fits the field buffer and none that has a field is recorded
under k, GetLatAndLon(k) is the same after them. A line without any field is
recorded from the rows the earlier lines left, under k only with the
coordinate k already has. -/
theorem loadLines_keeps_record (lines : List (List Char)) (k : Int) (v : LatLon) :
    ∀ (fields : Fields) (table : ZipMap), fields.length = 6 →
    (∀ l ∈ lines, NUL ∉ l ∧ fitsFields l ∧ (tokens l ≠ [] → lineKey l ≠ k)) →
    lookup table k = v →
    (atoi (fieldAt fields 0) = k →
      (⟨ConvertStringToDouble (fieldAt fields 2),
        ConvertStringToDouble (fieldAt fields 3)⟩ : LatLon) = v) →
    ∃ fields' table', loadLines lines fields table = .done (fields', table') ∧
      lookup table' k = v := by
  induction lines with
  | nil =>
    intro fields table _ _ hv _
    exact ⟨fields, table, rfl, hv⟩
  | cons l rest ih =>
    intro fields table hlen h hv hstale
    obtain ⟨hnul, hfit, hkey⟩ := h l (List.mem_cons_self _ _)
    have hstep := processLine_eq l fields table hfit
    have hlen' : (storeAll (tokens l) 0 fields).length = 6 := by
      rw [storeAll_length]; exact hlen
    have hstale' : atoi (fieldAt (storeAll (tokens l) 0 fields) 0) = k →
        (⟨ConvertStringToDouble (fieldAt (storeAll (tokens l) 0 fields) 2),
          ConvertStringToDouble (fieldAt (storeAll (tokens l) 0 fields) 3)⟩ : LatLon) = v := by
      intro hk
      cases htok : tokens l with
      | nil =>
        rw [htok] at hk
        simp only [storeAll] at hk ⊢
        exact hstale hk
      | cons t ts =>
        have hat := fieldAt_storeAll (tokens l) 0 fields 0 hlen
          (by have := hfit.1; omega) (tokens_no_NUL l hnul)
        rw [if_pos (by rw [htok]; simp)] at hat
        rw [hat] at hk
        exact absurd hk (hkey (by rw [htok]; simp))
    have hv' : lookup ((table.assign (atoi (fieldAt (storeAll (tokens l) 0 fields) 0))
        ⟨ConvertStringToDouble (fieldAt (storeAll (tokens l) 0 fields) 2),
         ConvertStringToDouble (fieldAt (storeAll (tokens l) 0 fields) 3)⟩)) k = v := by
      by_cases hk : atoi (fieldAt (storeAll (tokens l) 0 fields) 0) = k
      · rw [← hstale' hk, ← hk, lookup_assign_same]
      · rw [lookup_assign_other _ _ _ _ (Ne.symm hk)]
        exact hv
    obtain ⟨fields', table', hrest, hfinal⟩ := ih (storeAll (tokens l) 0 fields) _ hlen'
      (fun l' h' => h l' (List.mem_cons_of_mem _ h')) hv' hstale'
    exact ⟨fields', table', by simp only [loadLines, hstep, Run.andThen, hrest], hfinal⟩

/-- C3 (as amended): take a line "code,name,lat,lon" with at most two further
fields, where code is a run of decimal digits with a value below 2^31, lat and
lon are decimal numbers (optional minus, digits, optional point and digits),
the name and the further fields are not empty and hold no comma, and every
field is shorter than 32 bytes, the last one with the line terminator (the
white space after it, such as the newline) counted. Take an opened file in
which fgets delivers this line as one of its lines, where every other
delivered line splits into at most six fields (the non-empty fields strtok
finds), each shorter than 32 bytes with the newline on the last one counted,
and where no later line that has a field has the same parsed postal code.
Then the load succeeds and GetLatAndLon(code) returns lat and lon rounded to
doubles (to nearest, ties to even), each within its magnitude divided by 2^53
of the decimal number: the latitude comes from the third field, the longitude
from the fourth, and the name has no influence. -/
theorem LoadZipCodes_line_roundtrip (env : Env) (filePath stream : List Char)
    (table : ZipMap) (pre post : List (List Char))
    (code name : List Char) (latNeg lonNeg : Bool)
    (latWhole latFrac lonWhole lonFrac : List Char) (more : List (List Char))
    (terminator : List Char)
    (hpath : filePath ≠ []) (hopen : env.fopen filePath = .ok stream)
    (hlines : fileLines stream = pre ++
      (joinFields (code :: name :: decimalText latNeg latWhole latFrac ::
        decimalText lonNeg lonWhole lonFrac :: more) ++ terminator) :: post)
    (hpre : ∀ l ∈ pre, fitsFields l)
    (hpost : ∀ l ∈ post, fitsFields l ∧ (tokens l ≠ [] → lineKey l ≠ (decimalValue code : Int)))
    (hcode : code ≠ [] ∧ allDigits code ∧ decimalValue code < 2 ^ 31)
    (hname : plainField name)
    (hlat : latWhole ≠ [] ∧ allDigits latWhole ∧ allDigits latFrac)
    (hlon : lonWhole ≠ [] ∧ allDigits lonWhole ∧ allDigits lonFrac)
    (hmore : more.length ≤ 2 ∧ ∀ f ∈ more, plainField f)
    (hterm : ∀ c ∈ terminator, isspace c = true)
    (hshort : ∀ f ∈ code :: name :: decimalText latNeg latWhole latFrac ::
      decimalText lonNeg lonWhole lonFrac :: more, f.length < 32)
    (hend : (((code :: name :: decimalText latNeg latWhole latFrac ::
      decimalText lonNeg lonWhole lonFrac :: more).getLast?).getD []).length +
        terminator.length < 32) :
    ∃ table', LoadZipCodes env filePath table = .done ((true, "Success".toList), table') ∧
      (GetLatAndLon (decimalValue code) table').1 =
        ⟨nearestDouble (decimalNumber latNeg latWhole latFrac),
         nearestDouble (decimalNumber lonNeg lonWhole lonFrac)⟩ ∧
      |(GetLatAndLon (decimalValue code) table').1.lat - decimalNumber latNeg latWhole latFrac| ≤
        |decimalNumber latNeg latWhole latFrac| / 2 ^ 53 ∧
      |(GetLatAndLon (decimalValue code) table').1.lon - decimalNumber lonNeg lonWhole lonFrac| ≤
        |decimalNumber lonNeg lonWhole lonFrac| / 2 ^ 53 := by
  obtain ⟨hfit, hfour, hkey, hrecord⟩ := wellFormedLine_record code name latNeg lonNeg latWhole
    latFrac lonWhole lonFrac more terminator hcode hname hlat hlon hmore hterm hshort hend
  have hnulAll := fileLines_no_NUL stream
  rw [hlines] at hnulAll
  obtain ⟨fields0, table0, hlen0, hload0⟩ := loadLines_fits pre zeroFields table rfl hpre
  have hstep := processLine_full _ fields0 table0 hlen0 (hnulAll _ (by simp)) hfit hfour
  have hat : ∀ i, i < 4 →
      fieldAt (storeAll (tokens (joinFields (code :: name ::
        decimalText latNeg latWhole latFrac :: decimalText lonNeg lonWhole lonFrac :: more) ++
        terminator)) 0 fields0) i =
      (tokens (joinFields (code :: name :: decimalText latNeg latWhole latFrac ::
        decimalText lonNeg lonWhole lonFrac :: more) ++ terminator)).getD i [] := by
    intro i hi
    rw [fieldAt_storeAll _ 0 fields0 i hlen0 (by have := hfit.1; omega)
      (tokens_no_NUL _ (hnulAll _ (by simp))), if_pos (by omega)]
    rfl
  obtain ⟨fields', table', hrest, hfinal⟩ := loadLines_keeps_record post
    (lineKey (joinFields (code :: name :: decimalText latNeg latWhole latFrac ::
        decimalText lonNeg lonWhole lonFrac :: more) ++ terminator))
    (lineLatLon (joinFields (code :: name :: decimalText latNeg latWhole latFrac ::
        decimalText lonNeg lonWhole lonFrac :: more) ++ terminator))
    (storeAll (tokens (joinFields (code :: name ::
        decimalText latNeg latWhole latFrac :: decimalText lonNeg lonWhole lonFrac :: more) ++
        terminator)) 0 fields0)
    (table0.assign (lineKey (joinFields (code :: name :: decimalText latNeg latWhole latFrac ::
        decimalText lonNeg lonWhole lonFrac :: more) ++ terminator))
      (lineLatLon (joinFields (code :: name :: decimalText latNeg latWhole latFrac ::
        decimalText lonNeg lonWhole lonFrac :: more) ++ terminator)))
    (by rw [storeAll_length]; exact hlen0)
    (fun l hl => ⟨hnulAll l (by simp [hl]), (hpost l hl).1,
      fun hne => by rw [hkey]; exact (hpost l hl).2 hne⟩)
    (lookup_assign_same _ _ _)
    (fun _ => by rw [hat 2 (by omega), hat 3 (by omega)]; rfl)
  have hreturned : (GetLatAndLon (decimalValue code) table').1 =
      ⟨nearestDouble (decimalNumber latNeg latWhole latFrac),
       nearestDouble (decimalNumber lonNeg lonWhole lonFrac)⟩ := by
    show lookup table' (decimalValue code) = _
    rw [← hkey, hfinal, hrecord]
  have hlatLen := hshort (decimalText latNeg latWhole latFrac) (by simp)
  have hlonLen := hshort (decimalText lonNeg lonWhole lonFrac) (by simp)
  have h1 := decimalText_length latNeg latWhole latFrac
  have h2 := decimalText_length lonNeg lonWhole lonFrac
  refine ⟨table', ?_, hreturned, ?_, ?_⟩
  · rw [LoadZipCodes_opened env filePath stream table hpath hopen, hlines, loadLines_append,
      hload0]
    simp only [Run.andThen, loadLines, hstep, hrest]
  · rw [hreturned]
    exact decimalNumber_near latNeg latWhole latFrac hlat.2.1 hlat.2.2 (by omega)
  · rw [hreturned]
    exact decimalNumber_near lonNeg lonWhole lonFrac hlon.2.1 hlon.2.2 (by omega)


/-- C3 at the line "94040,Mountain View,37.3861,-122.0839,CA": after the load
GetLatAndLon(94040) is the pair of the doubles nearest to 37.3861 and
-122.0839, which are 657703226675141 / 2^44 and -4295445363655757 / 2^45. -/
theorem LoadZipCodes_line_roundtrip_witness :
    (∃ table', LoadZipCodes (Env.single "94040,Mountain View,37.3861,-122.0839,CA\n")
        "zips.csv".toList ZipMap.clear = .done ((true, "Success".toList), table') ∧
      (GetLatAndLon (decimalValue "94040".toList) table').1 =
        ⟨nearestDouble (decimalNumber false "37".toList "3861".toList),
         nearestDouble (decimalNumber true "122".toList "0839".toList)⟩ ∧
      |(GetLatAndLon (decimalValue "94040".toList) table').1.lat -
          decimalNumber false "37".toList "3861".toList| ≤
        |decimalNumber false "37".toList "3861".toList| / 2 ^ 53 ∧
      |(GetLatAndLon (decimalValue "94040".toList) table').1.lon -
          decimalNumber true "122".toList "0839".toList| ≤
        |decimalNumber true "122".toList "0839".toList| / 2 ^ 53) ∧
    ((decimalValue "94040".toList : Int) = 94040 ∧
      decimalNumber false "37".toList "3861".toList = mkRat 373861 10000 ∧
      decimalNumber true "122".toList "0839".toList = mkRat (-1220839) 10000 ∧
      nearestDouble (mkRat 373861 10000) = mkRat 657703226675141 (2 ^ 44) ∧
      nearestDouble (mkRat (-1220839) 10000) = mkRat (-4295445363655757) (2 ^ 45)) :=
  ⟨LoadZipCodes_line_roundtrip (Env.single "94040,Mountain View,37.3861,-122.0839,CA\n")
    "zips.csv".toList "94040,Mountain View,37.3861,-122.0839,CA\n".toList ZipMap.clear [] []
    "94040".toList "Mountain View".toList false true "37".toList "3861".toList "122".toList
    "0839".toList ["CA".toList] ['\n']
    (by decide) rfl (by decide) (by decide) (by decide) (by decide) (by decide) (by decide)
    (by decide) (by decide) (by decide) (by decide) (by decide),
   by decide,
   by
    have h1 : decimalValue "37".toList = 37 := by decide
    have h2 : decimalValue "3861".toList = 3861 := by decide
    have h3 : "3861".toList.length = 4 := by decide
    simp only [decimalNumber, h1, h2, h3, Rat.mkRat_eq_div]
    norm_num,
   by
    have h1 : decimalValue "122".toList = 122 := by decide
    have h2 : decimalValue "0839".toList = 839 := by decide
    have h3 : "0839".toList.length = 4 := by decide
    simp only [decimalNumber, h1, h2, h3, Rat.mkRat_eq_div]
    norm_num,
   by decide, by decide⟩

set_option maxRecDepth 100000 in
/-- C3 as stated fails, in three ways; every line here is of the form
"code,name,lat,lon,..." with a decimal code and decimal coordinates. The first
has three fields after the longitude, and the copy of the seventh field is a
store past the end of `fields`: the load has no defined result. The second is
"7,a,1,2" followed by further fields, 1031 bytes in all; fgets delivers it in
two pieces, the second is loaded as a record of its own, and GetLatAndLon(7)
returns (3,4), not (1,2). The third has the latitude 12345678901234567.1,
which is no double: GetLatAndLon(1) returns the nearest double,
12345678901234568, which is 0.9 away. -/
theorem LoadZipCodes_line_roundtrip_counterexample :
    LoadZipCodes (Env.single "94040,Mountain View,37.3861,-122.0839,CA,USA,Earth\n")
        "zips.csv".toList ZipMap.clear = .fault (.outsideArray 6 6) ∧
    (longLineFile '7').take 8 = "7,a,1,2,".toList ∧ (longLineFile '7').count '\n' = 1 ∧
    (LoadZipCodes (Env.ofFiles [("zips.csv".toList, longLineFile '7')]) "zips.csv".toList
        ZipMap.clear).andThen (fun r => .done (r.1, (GetLatAndLon 7 r.2).1)) =
      .done ((true, "Success".toList), ⟨3, 4⟩) ∧
    (LoadZipCodes (Env.single "1,a,12345678901234567.1,2\n") "zips.csv".toList
        ZipMap.clear).andThen (fun r => .done (r.1, (GetLatAndLon 1 r.2).1)) =
      .done ((true, "Success".toList), ⟨mkRat 12345678901234568 1, 2⟩) ∧
    mkRat 12345678901234568 1 - mkRat 123456789012345671 10 = 9 / 10 := by
  refine ⟨by decide, by decide, by decide, by decide, by decide, ?_⟩
  rw [Rat.mkRat_eq_div, Rat.mkRat_eq_div]
  norm_num

/-! ## The loop bounds of the embedding are never reached -/

theorem fieldLoop_fuel (fuel : Nat) :
    ∀ (pending : Option (List Char × List Char)) (index : Nat) (fields : Fields),
    (∀ t r, pending = some (t, r) → r.length < fuel) →
    fieldLoop fuel pending index fields ≠ .fault .fuel := by
  induction fuel with
  | zero =>
    intro pending index fields h
    cases pending with
    | none => simp [fieldLoop]
    | some p => exact absurd (h p.1 p.2 rfl) (Nat.not_lt_zero _)
  | succ fuel ih =>
    intro pending index fields h
    cases pending with
    | none => simp [fieldLoop]
    | some p =>
      obtain ⟨t, r⟩ := p
      simp only [fieldLoop]
      unfold strcpy
      split_ifs
      · simp only [Run.andThen]
        apply ih
        intro t' r' h'
        have h1 := (strtok_some ',' r t' r' h').1
        have h2 := h t r rfl
        omega
      · simp [Run.andThen]
      · simp [Run.andThen]

theorem processLine_fuel (line : List Char) (fields : Fields) (table : ZipMap) :
    processLine line fields table ≠ .fault .fuel := by
  have h := fieldLoop_fuel line.length (strtok ',' line) 0 fields
    (fun t r h' => (strtok_some ',' line t r h').1)
  unfold processLine
  cases hf : fieldLoop line.length (strtok ',' line) 0 fields with
  | done stored => simp [Run.andThen]
  | fault f =>
    rw [hf] at h
    simpa [Run.andThen] using h

theorem readLoop_fuel (fuel : Nat) :
    ∀ (stream : List Char) (fields : Fields) (table : ZipMap), stream.length ≤ fuel →
    readLoop fuel stream fields table ≠ .fault .fuel := by
  induction fuel with
  | zero =>
    intro stream fields table h
    have hs : stream = [] := List.length_eq_zero.1 (Nat.le_zero.1 h)
    subst hs
    simp [readLoop, fgets]
  | succ fuel ih =>
    intro stream fields table h
    unfold readLoop
    cases hg : fgets 1024 stream with
    | none => simp
    | some p =>
      obtain ⟨chunk, rest⟩ := p
      have hrest := fgets_some stream chunk rest hg
      simp only
      cases hp : processLine (cstr chunk) fields table with
      | done state =>
        simp only [Run.andThen]
        exact ih rest state.1 state.2 (by omega)
      | fault f =>
        have := processLine_fuel (cstr chunk) fields table
        rw [hp] at this
        simpa [Run.andThen] using this

theorem LoadZipCodes_fuel (env : Env) (filePath : List Char) (table : ZipMap) :
    LoadZipCodes env filePath table ≠ .fault .fuel := by
  unfold LoadZipCodes
  rcases FileHandler env filePath with ⟨stream, errno⟩
  cases stream with
  | none =>
    simp only [openErrorMessage]
    split_ifs <;> simp [Run.andThen]
  | some stream =>
    simp only
    have h := readLoop_fuel stream.length stream zeroFields table (le_refl _)
    cases hr : readLoop stream.length stream zeroFields table with
    | done state => simp [Run.andThen]
    | fault f =>
      rw [hr] at h
      simpa [Run.andThen] using h

/-! ## Lines shorter than the line buffer are delivered whole -/

theorem linesFrom_fuel (n : Nat) :
    ∀ (m : Nat) (stream : List Char), stream.length ≤ n → stream.length ≤ m →
    linesFrom n stream = linesFrom m stream := by
  induction n with
  | zero =>
    intro m stream h _
    have hs : stream = [] := List.length_eq_zero.1 (Nat.le_zero.1 h)
    subst hs
    unfold linesFrom
    simp [fgets]
  | succ n ih =>
    intro m stream hn hm
    cases hg : fgets 1024 stream with
    | none =>
      unfold linesFrom
      simp [hg]
    | some p =>
      obtain ⟨chunk, rest⟩ := p
      have hrest := fgets_some stream chunk rest hg
      cases m with
      | zero => omega
      | succ m =>
        unfold linesFrom
        simp only [hg]
        rw [ih m rest (by omega) (by omega)]

theorem fgetsRead_line (room : Nat) :
    ∀ (l rest : List Char), '\n' ∉ l → l.length < room →
    fgetsRead room (l ++ '\n' :: rest) = (l ++ ['\n'], rest) := by
  induction room with
  | zero => intro l rest _ h; omega
  | succ room ih =>
    intro l rest hl hlen
    cases l with
    | nil => simp [fgetsRead]
    | cons c cs =>
      have hc : c ≠ '\n' := fun hh => hl (by simp [hh])
      have hcs : '\n' ∉ cs := fun hh => hl (List.mem_cons_of_mem _ hh)
      have := ih cs rest hcs (by simpa using hlen)
      simp [fgetsRead, hc, this]

theorem cstr_of_no_NUL (l : List Char) (h : NUL ∉ l) : cstr l = l := by
  unfold cstr
  rw [List.takeWhile_eq_self_iff]
  intro c hc
  have : c ≠ NUL := fun hh => h (hh ▸ hc)
  simpa using this

theorem fileLines_line (l rest : List Char) (hnl : '\n' ∉ l) (hnul : NUL ∉ l)
    (hlen : l.length < 1023) :
    fileLines (l ++ '\n' :: rest) = (l ++ ['\n']) :: fileLines rest := by
  have hread := fgetsRead_line 1023 l rest hnl hlen
  have hg : fgets 1024 (l ++ '\n' :: rest) = some (l ++ ['\n'], rest) := by
    cases l with
    | nil => simpa [fgets] using hread
    | cons c cs => simpa [fgets] using hread
  have hnul' : NUL ∉ l ++ ['\n'] := by
    intro h
    rcases List.mem_append.1 h with h | h
    · exact hnul h
    · revert h; decide
  have hlen' : (l ++ '\n' :: rest).length = (l.length + rest.length) + 1 := by
    simp only [List.length_append, List.length_cons]
    omega
  have hstep : linesFrom (l.length + rest.length + 1) (l ++ '\n' :: rest) =
      cstr (l ++ ['\n']) :: linesFrom (l.length + rest.length) rest := by
    rw [linesFrom]
    simp only [hg]
  unfold fileLines
  rw [hlen', hstep, cstr_of_no_NUL _ hnul',
    linesFrom_fuel (l.length + rest.length) rest.length rest (by omega) (le_refl _)]

/-! ## A postal code that is no number: C11 -/

theorem atoi_no_number (s : List Char) (h : startsWithNumber s = false) : atoi s = 0 := by
  have hempty : (takeSign (s.dropWhile isspace)).2.takeWhile isdigit = [] := by
    unfold startsWithNumber at h
    cases hd : (takeSign (s.dropWhile isspace)).2.takeWhile isdigit with
    | nil => rfl
    | cons c cs => rw [hd] at h; simp at h
  unfold atoi strtol
  simp only [hempty]
  cases (takeSign (s.dropWhile isspace)).1 <;> decide

/-- C11 (as amended): take an opened file whose lines, as fgets delivers them,
each split into at most six fields (the non-empty fields strtok finds), every
field shorter than 32 bytes with the newline that stays on the last field of a
line counted, and a line of it with at least four fields whose first field
does not start with a number (after white space and an optional sign there is
no digit, as in "ABC"). The postal code parsed from the line is 0, the line is
not rejected, and when no later line that has a field has the parsed postal
code 0 the load succeeds and GetLatAndLon(0) returns the coordinate converted
from the third and fourth fields of that line. -/
theorem LoadZipCodes_nonnumeric_code (env : Env) (filePath stream : List Char)
    (table : ZipMap) (pre post : List (List Char)) (line : List Char)
    (hpath : filePath ≠ []) (hopen : env.fopen filePath = .ok stream)
    (hlines : fileLines stream = pre ++ line :: post)
    (hfits : ∀ l ∈ fileLines stream, fitsFields l)
    (hfour : 4 ≤ (tokens line).length)
    (hcode : startsWithNumber ((tokens line).getD 0 []) = false)
    (hlater : ∀ l ∈ post, tokens l ≠ [] → lineKey l ≠ 0) :
    lineKey line = 0 ∧
    ∃ table', LoadZipCodes env filePath table = .done ((true, "Success".toList), table') ∧
      (GetLatAndLon 0 table').1 = lineLatLon line := by
  have hkey : lineKey line = 0 := atoi_no_number _ hcode
  have hmem : ∀ l, l ∈ pre ∨ l = line ∨ l ∈ post → l ∈ fileLines stream := by
    intro l hl
    rw [hlines]
    simp only [List.mem_append, List.mem_cons]
    tauto
  have hnul : ∀ l, l ∈ pre ∨ l = line ∨ l ∈ post → NUL ∉ l :=
    fun l hl => fileLines_no_NUL stream l (hmem l hl)
  have hfit : ∀ l, l ∈ pre ∨ l = line ∨ l ∈ post → fitsFields l :=
    fun l hl => hfits l (hmem l hl)
  obtain ⟨fields0, table0, hlen0, hload0⟩ := loadLines_fits pre zeroFields table rfl
    (fun l hl => hfit l (Or.inl hl))
  have hstep := processLine_full line fields0 table0 hlen0 (hnul line (Or.inr (Or.inl rfl)))
    (hfit line (Or.inr (Or.inl rfl))) hfour
  have hlen1 : (storeAll (tokens line) 0 fields0).length = 6 := by
    rw [storeAll_length]; exact hlen0
  have hat : ∀ i, i < 4 →
      fieldAt (storeAll (tokens line) 0 fields0) i = (tokens line).getD i [] := by
    intro i hi
    rw [fieldAt_storeAll (tokens line) 0 fields0 i hlen0
      (by have := (hfit line (Or.inr (Or.inl rfl))).1; omega)
      (tokens_no_NUL line (hnul line (Or.inr (Or.inl rfl)))), if_pos (by omega)]
    rfl
  obtain ⟨fields2, table2, hload2, hlook⟩ := loadLines_keeps_record post (lineKey line)
    (lineLatLon line) (storeAll (tokens line) 0 fields0)
    (table0.assign (lineKey line) (lineLatLon line)) hlen1
    (fun l hl => ⟨hnul l (Or.inr (Or.inr hl)), hfit l (Or.inr (Or.inr hl)),
      fun hne => by rw [hkey]; exact hlater l hl hne⟩)
    (lookup_assign_same _ _ _)
    (fun _ => by rw [hat 2 (by omega), hat 3 (by omega)]; rfl)
  refine ⟨hkey, table2, ?_, ?_⟩
  · rw [LoadZipCodes_opened env filePath stream table hpath hopen, hlines,
      loadLines_append pre (line :: post), hload0]
    simp only [Run.andThen, loadLines, hstep, hload2]
  · show lookup table2 0 = lineLatLon line
    rw [← hkey, hlook]

/-- C11 at the line "ABC,City,40.7,-74.0,NY" between two other lines, the
later one short: the record is under key 0 and GetLatAndLon(0) returns
(40.7, -74). -/
theorem LoadZipCodes_nonnumeric_code_witness :
    (lineKey "ABC,City,40.7,-74.0,NY\n".toList = 0 ∧
      ∃ table', LoadZipCodes
          (Env.single "94040,Mountain View,37.3861,-122.0839,CA\nABC,City,40.7,-74.0,NY\n10001,Gone\n")
          "zips.csv".toList exampleTable = .done ((true, "Success".toList), table') ∧
        (GetLatAndLon 0 table').1 = lineLatLon "ABC,City,40.7,-74.0,NY\n".toList) ∧
    lineLatLon "ABC,City,40.7,-74.0,NY\n".toList = ⟨nearestDouble (mkRat 407 10), mkRat (-74) 1⟩ :=
  ⟨LoadZipCodes_nonnumeric_code
    (Env.single "94040,Mountain View,37.3861,-122.0839,CA\nABC,City,40.7,-74.0,NY\n10001,Gone\n")
    "zips.csv".toList
    "94040,Mountain View,37.3861,-122.0839,CA\nABC,City,40.7,-74.0,NY\n10001,Gone\n".toList
    exampleTable ["94040,Mountain View,37.3861,-122.0839,CA\n".toList] ["10001,Gone\n".toList]
    "ABC,City,40.7,-74.0,NY\n".toList
    (by decide) rfl (by decide) (by decide) (by decide) (by decide) (by decide),
   by decide⟩

/-- C11 as stated fails: the first field "94040-1234" is not a number, and
the postal code parsed from it is 94040, the number at its start, not 0. The
record is under 94040 and GetLatAndLon(0) returns (0,0). -/
theorem LoadZipCodes_nonnumeric_code_counterexample :
    lineKey "94040-1234,Mountain View,37.3861,-122.0839,CA\n".toList = 94040 ∧
    (LoadZipCodes (Env.single "94040-1234,Mountain View,37.3861,-122.0839,CA\n")
        "zips.csv".toList ZipMap.clear).andThen
        (fun r => .done (r.1, (GetLatAndLon 0 r.2).1, (GetLatAndLon 94040 r.2).1)) =
      .done ((true, "Success".toList), ⟨0, 0⟩,
        ⟨nearestDouble (mkRat 373861 10000), nearestDouble (mkRat (-1220839) 10000)⟩) := by
  decide

/-! ## Success once the file is open: C12 -/

theorem LoadZipCodes_not_false (env : Env) (filePath stream : List Char) (table : ZipMap)
    (hpath : filePath ≠ []) (hopen : env.fopen filePath = .ok stream)
    (message : List Char) (table' : ZipMap) :
    LoadZipCodes env filePath table ≠ .done ((false, message), table') := by
  rw [LoadZipCodes_opened env filePath stream table hpath hopen]
  cases loadLines (fileLines stream) zeroFields table with
  | done state =>
    intro h
    simp only [Run.andThen, Run.done.injEq, Prod.mk.injEq] at h
    exact absurd h.1.1 (by decide)
  | fault f => intro h; cases h

theorem LoadZipCodes_success_of_fits (env : Env) (filePath stream : List Char)
    (table : ZipMap) (hpath : filePath ≠ []) (hopen : env.fopen filePath = .ok stream)
    (hfits : ∀ l ∈ fileLines stream, fitsFields l) :
    ∃ table', LoadZipCodes env filePath table = .done ((true, "Success".toList), table') := by
  obtain ⟨fields', table', _, hload⟩ := loadLines_fits (fileLines stream) zeroFields table rfl
    hfits
  exact ⟨table', by
    rw [LoadZipCodes_opened env filePath stream table hpath hopen, hload]
    rfl⟩

/-- C12, the code at the failing input and next to it: an empty file gives
(true, "Success") and the table unchanged, a file of lines with missing and
non-numeric fields gives (true, "Success"), and a file with a line of seven
fields has no defined result, because the copy of the seventh field is a
store past the end of `fields`. -/
theorem LoadZipCodes_success_unless_overrun :
    LoadZipCodes (Env.single "") "zips.csv".toList exampleTable =
      .done ((true, "Success".toList), exampleTable) ∧
    (LoadZipCodes (Env.single "ABC\n,,\n\nxyz,City,abc,def\n10001\n") "zips.csv".toList
        exampleTable).andThen (fun r => .done r.1) = .done (true, "Success".toList) ∧
    LoadZipCodes (Env.single "10001,New York,40.7,-74.0,NY,USA,Earth\n") "zips.csv".toList
        exampleTable = .fault (.outsideArray 6 6) := by
  decide

/-! ## A stored zero and a missing key: C13 -/

/-- C13: for every table and every key k that the table does not have, the
table with k set to (0,0) and the table without k give the same GetLatAndLon
result for every key. -/
theorem zero_entry_indistinguishable (table : ZipMap) (k : Int) (habsent : k ∉ table.keys)
    (k' : Int) :
    (GetLatAndLon k' (table.assign k ⟨0, 0⟩)).1 = (GetLatAndLon k' table).1 := by
  show lookup (table.assign k ⟨0, 0⟩) k' = lookup table k'
  by_cases h : k' = k
  · subst h
    rw [lookup_assign_same, lookup_eq, findEntry_none k' table.entries habsent]
    rfl
  · exact lookup_assign_other table k k' _ h

/-- C13 at the table of the examples and key 0, and at the load of
"00000,Unknown,0,0,XX" into the empty table: the loaded table has an entry for
0, the empty table has none, and GetLatAndLon(0) is (0,0) on both. -/
theorem zero_entry_indistinguishable_witness :
    (GetLatAndLon 0 (exampleTable.assign 0 ⟨0, 0⟩)).1 = (GetLatAndLon 0 exampleTable).1 ∧
    (LoadZipCodes (Env.single "00000,Unknown,0,0,XX\n") "zips.csv".toList
        ZipMap.clear).andThen (fun r => .done (r.2.keys, (GetLatAndLon 0 r.2).1)) =
      .done ([0], ⟨0, 0⟩) ∧
    ZipMap.clear.keys = [] ∧ (GetLatAndLon 0 ZipMap.clear).1 = ⟨0, 0⟩ :=
  ⟨zero_entry_indistinguishable exampleTable 0 (by decide) 0, by decide, by decide, by decide⟩

/-! ## The order of the lines: C14 -/

theorem lookup_recordLines_nodup (lines : List (List Char)) (table : ZipMap)
    (hdistinct : (lines.map lineKey).Nodup) (line : List Char) (hline : line ∈ lines) :
    lookup (recordLines lines table) (lineKey line) = lineLatLon line := by
  obtain ⟨pre, post, rfl⟩ := List.append_of_mem hline
  apply lookup_recordLines_last
  intro l hl heq
  rw [List.map_append, List.map_cons] at hdistinct
  have h1 := (List.nodup_append.1 hdistinct).2.1
  have h2 := (List.nodup_cons.1 h1).1
  exact h2 (heq ▸ List.mem_map_of_mem lineKey hl)

theorem lookup_recordLines_perm (lines1 lines2 : List (List Char)) (table : ZipMap)
    (hperm : lines1.Perm lines2) (hdistinct : (lines1.map lineKey).Nodup) (k : Int) :
    lookup (recordLines lines1 table) k = lookup (recordLines lines2 table) k := by
  have hdistinct2 : (lines2.map lineKey).Nodup := (hperm.map lineKey).nodup_iff.1 hdistinct
  by_cases h : ∃ l ∈ lines1, lineKey l = k
  · obtain ⟨l, hl, rfl⟩ := h
    rw [lookup_recordLines_nodup lines1 table hdistinct l hl,
      lookup_recordLines_nodup lines2 table hdistinct2 l (hperm.mem_iff.1 hl)]
  · have h1 : ∀ l ∈ lines1, lineKey l ≠ k := fun l hl heq => h ⟨l, hl, heq⟩
    have h2 : ∀ l ∈ lines2, lineKey l ≠ k := fun l hl => h1 l (hperm.mem_iff.2 hl)
    rw [lookup_recordLines_other lines1 k table h1, lookup_recordLines_other lines2 k table h2]

/-- C14 (as amended): take two opened files whose lines, as fgets delivers
them, are a permutation of each other, each line splitting into four to six
fields (the non-empty fields strtok finds), every field shorter than 32 bytes
with the newline that stays on the last field of a line counted, and the
postal codes parsed from the lines pairwise distinct. Loaded into the same
starting table, both loads succeed and the two tables give equal GetLatAndLon
results for every key. -/
theorem LoadZipCodes_order_irrelevant (env : Env) (path1 path2 stream1 stream2 : List Char)
    (table : ZipMap)
    (hpath1 : path1 ≠ []) (hopen1 : env.fopen path1 = .ok stream1)
    (hpath2 : path2 ≠ []) (hopen2 : env.fopen path2 = .ok stream2)
    (hperm : (fileLines stream1).Perm (fileLines stream2))
    (hfit : ∀ l ∈ fileLines stream1, fitsFields l ∧ 4 ≤ (tokens l).length)
    (hdistinct : ((fileLines stream1).map lineKey).Nodup) :
    ∃ table1 table2,
      LoadZipCodes env path1 table = .done ((true, "Success".toList), table1) ∧
      LoadZipCodes env path2 table = .done ((true, "Success".toList), table2) ∧
      ∀ k, (GetLatAndLon k table1).1 = (GetLatAndLon k table2).1 := by
  refine ⟨recordLines (fileLines stream1) table, recordLines (fileLines stream2) table,
    LoadZipCodes_full env path1 stream1 table hpath1 hopen1 hfit,
    LoadZipCodes_full env path2 stream2 table hpath2 hopen2
      (fun l hl => hfit l (hperm.mem_iff.2 hl)), ?_⟩
  intro k
  exact lookup_recordLines_perm _ _ table hperm hdistinct k

/-- C14 at the three lines of 94040, 10001 and 60601 in two orders, loaded
over the table of the examples. -/
theorem LoadZipCodes_order_irrelevant_witness :
    ∃ table1 table2,
      LoadZipCodes (Env.ofFiles [("a.csv".toList, threeLinesFile.toList),
          ("b.csv".toList, threeLinesShuffled.toList)]) "a.csv".toList exampleTable =
        .done ((true, "Success".toList), table1) ∧
      LoadZipCodes (Env.ofFiles [("a.csv".toList, threeLinesFile.toList),
          ("b.csv".toList, threeLinesShuffled.toList)]) "b.csv".toList exampleTable =
        .done ((true, "Success".toList), table2) ∧
      ∀ k, (GetLatAndLon k table1).1 = (GetLatAndLon k table2).1 :=
  LoadZipCodes_order_irrelevant
    (Env.ofFiles [("a.csv".toList, threeLinesFile.toList),
      ("b.csv".toList, threeLinesShuffled.toList)])
    "a.csv".toList "b.csv".toList threeLinesFile.toList threeLinesShuffled.toList exampleTable
    (by decide) rfl (by decide) rfl (by decide) (by decide) (by decide)

set_option maxRecDepth 100000 in
/-- C14 as stated fails: the two lines are the line of 1031 bytes that starts
"7,a,1,2" and the line "5,c,8,9"; each has at least four fields and their
postal codes, 7 and 5, are distinct. The long line is loaded in two pieces,
the second recorded under 5, so the two orders of the lines give different
coordinates for 5: (8,9) and (3,4). -/
theorem LoadZipCodes_order_irrelevant_counterexample :
    (longLineFile '5').count '\n' = 1 ∧ (longLineFile '5').take 8 = "7,a,1,2,".toList ∧
    (LoadZipCodes (Env.ofFiles [("ab.csv".toList, longLineFile '5' ++ "5,c,8,9\n".toList)])
        "ab.csv".toList ZipMap.clear).andThen (fun r => .done (r.1, (GetLatAndLon 5 r.2).1)) =
      .done ((true, "Success".toList), ⟨8, 9⟩) ∧
    (LoadZipCodes (Env.ofFiles [("ba.csv".toList, "5,c,8,9\n".toList ++ longLineFile '5')])
        "ba.csv".toList ZipMap.clear).andThen (fun r => .done (r.1, (GetLatAndLon 5 r.2).1)) =
      .done ((true, "Success".toList), ⟨3, 4⟩) := by
  decide

/-! ## One record per line: C16 -/

theorem loadLines_eq_insertions (lines : List (List Char)) :
    ∀ (fields : Fields) (table : ZipMap),
    (loadLines lines fields table).andThen (fun state => .done state.2) =
      (insertions lines fields).andThen fun trace => .done (applyInsertions trace table) := by
  induction lines with
  | nil => intro fields table; rfl
  | cons l rest ih =>
    intro fields table
    simp only [loadLines, insertions, processLine]
    cases fieldLoop l.length (strtok ',' l) 0 fields with
    | fault f => rfl
    | done stored =>
      simp only [Run.andThen]
      have h := ih stored (table.assign (atoi (fieldAt stored 0))
        ⟨ConvertStringToDouble (fieldAt stored 2), ConvertStringToDouble (fieldAt stored 3)⟩)
      simp only [Run.andThen] at h
      rw [h]
      cases insertions rest stored with
      | fault f => rfl
      | done later => rfl

theorem insertions_keys (lines : List (List Char)) :
    ∀ (fields : Fields), fields.length = 6 →
    (∀ l ∈ lines, NUL ∉ l ∧ fitsFields l ∧ tokens l ≠ []) →
    ∃ trace, insertions lines fields = .done trace ∧ trace.map Prod.fst = lines.map lineKey := by
  induction lines with
  | nil => intro fields _ _; exact ⟨[], rfl, rfl⟩
  | cons l rest ih =>
    intro fields hlen h
    obtain ⟨hnul, hfit, htok⟩ := h l (List.mem_cons_self _ _)
    have hloop := fieldLoop_eq_storeAll l.length (strtok ',' l) 0 fields
      (fun t r h' => (strtok_some ',' l t r h').1)
      (by have := hfit.1; unfold tokens at this; omega)
      (by have := hfit.2; unfold tokens at this; exact this)
    have hloop' : fieldLoop l.length (strtok ',' l) 0 fields =
        .done (storeAll (tokens l) 0 fields) := hloop
    have hpos : 0 < (tokens l).length := List.length_pos.2 htok
    have hat := fieldAt_storeAll (tokens l) 0 fields 0 hlen (by have := hfit.1; omega)
      (tokens_no_NUL l hnul)
    rw [if_pos (by omega)] at hat
    obtain ⟨later, hlater, hkeys⟩ := ih (storeAll (tokens l) 0 fields)
      (by rw [storeAll_length]; exact hlen) (fun l' h' => h l' (List.mem_cons_of_mem _ h'))
    refine ⟨(atoi (fieldAt (storeAll (tokens l) 0 fields) 0),
        ⟨ConvertStringToDouble (fieldAt (storeAll (tokens l) 0 fields) 2),
         ConvertStringToDouble (fieldAt (storeAll (tokens l) 0 fields) 3)⟩) :: later, ?_, ?_⟩
    · simp only [insertions, hloop', Run.andThen, hlater]
    · simp only [List.map_cons, hkeys, hat]
      rfl

theorem fgetsRead_all (room : Nat) :
    ∀ (l : List Char), '\n' ∉ l → l.length ≤ room → fgetsRead room l = (l, []) := by
  induction room with
  | zero =>
    intro l _ h
    have hl : l = [] := List.length_eq_zero.1 (Nat.le_zero.1 h)
    subst hl
    rfl
  | succ room ih =>
    intro l hl hlen
    cases l with
    | nil => rfl
    | cons c cs =>
      have hc : c ≠ '\n' := fun hh => hl (by simp [hh])
      have hcs : '\n' ∉ cs := fun hh => hl (List.mem_cons_of_mem _ hh)
      have := ih cs hcs (by simpa using hlen)
      simp [fgetsRead, hc, this]

theorem fileLines_nil : fileLines [] = [] := by
  unfold fileLines linesFrom
  simp [fgets]

theorem fileLines_last (last : List Char) (hne : last ≠ []) (hwhole : wholeLine last) :
    fileLines last = [last] := by
  obtain ⟨c, cs, rfl⟩ := List.exists_cons_of_ne_nil hne
  have hread := fgetsRead_all 1023 (c :: cs) hwhole.1 (le_of_lt hwhole.2.2)
  have hg : fgets 1024 (c :: cs) = some (c :: cs, []) := by
    simp only [fgets]
    rw [hread]
  have hstep : linesFrom (cs.length + 1) (c :: cs) = cstr (c :: cs) :: linesFrom cs.length [] := by
    rw [linesFrom]
    simp only [hg]
  have hend : linesFrom cs.length [] = [] := by
    unfold linesFrom
    simp [fgets]
  unfold fileLines
  rw [List.length_cons, hstep, hend, cstr_of_no_NUL _ hwhole.2.1]

theorem fileLines_joinLines (lines : List (List Char)) (last : List Char)
    (hlines : ∀ l ∈ lines, wholeLine l) (hlast : last = [] ∨ wholeLine last) :
    fileLines (joinLines lines ++ last) =
      lines.map (· ++ ['\n']) ++ (if last = [] then [] else [last]) := by
  induction lines with
  | nil =>
    simp only [joinLines, List.nil_append, List.map_nil]
    by_cases h : last = []
    · rw [if_pos h, h]
      exact fileLines_nil
    · rw [if_neg h]
      rcases hlast with hl | hl
      · exact absurd hl h
      · exact fileLines_last last h hl
  | cons l rest ih =>
    obtain ⟨hnl, hnul, hlen⟩ := hlines l (List.mem_cons_self _ _)
    have hrest := ih (fun x hx => hlines x (List.mem_cons_of_mem _ hx))
    simp only [joinLines, List.cons_append, List.append_assoc, List.map_cons]
    rw [fileLines_line l (joinLines rest ++ last) hnl hnul hlen, hrest]

theorem tokens_ne_nil (line : List Char) (h : ∃ c ∈ line, c ≠ ',') : tokens line ≠ [] := by
  obtain ⟨c, hc, hne⟩ := h
  have hdrop : line.dropWhile (· == ',') ≠ [] := by
    intro hnil
    have hall : ∀ x ∈ line, (x == ',') = true := by
      have := List.dropWhile_eq_nil_iff.1 hnil
      simpa using this
    have := hall c hc
    simp at this
    exact hne this
  have hpos : 0 < line.length := List.length_pos.2 (List.ne_nil_of_mem hc)
  obtain ⟨n, hn⟩ : ∃ n, line.length = n + 1 := ⟨line.length - 1, by omega⟩
  unfold tokens strtok
  rw [hn]
  cases hd : line.dropWhile (· == ',') with
  | nil => exact absurd hd hdrop
  | cons x xs => simp [tokensFrom]

/-- C16 (as amended): take an opened file made of lines that end with a
newline and, possibly, a last line without one; every line is free of NUL and
shorter than 1023 bytes and, taken with its newline, splits into at most six
fields (the non-empty fields strtok finds), every field shorter than 32 bytes
with the newline on the last field counted; the last line without newline,
when there is one, has a field. Then the load makes exactly one insertion per
line, in the order of the lines, and the insertion for a line is keyed by the
postal code parsed from the first field of that line. -/
theorem LoadZipCodes_one_insertion_per_line (env : Env) (filePath : List Char)
    (table : ZipMap) (lines : List (List Char)) (last : List Char)
    (hpath : filePath ≠ []) (hopen : env.fopen filePath = .ok (joinLines lines ++ last))
    (hlines : ∀ l ∈ lines, wholeLine l ∧ fitsFields (l ++ ['\n']))
    (hlast : last = [] ∨ (wholeLine last ∧ fitsFields last ∧ tokens last ≠ [])) :
    ∃ trace, fileInsertions (joinLines lines ++ last) = .done trace ∧
      LoadZipCodes env filePath table =
        .done ((true, "Success".toList), applyInsertions trace table) ∧
      trace.map Prod.fst =
        lines.map (fun l => lineKey (l ++ ['\n'])) ++ (if last = [] then [] else [lineKey last]) := by
  have hpieces := fileLines_joinLines lines last (fun l hl => (hlines l hl).1)
    (hlast.imp id fun h => h.1)
  have hall : ∀ p ∈ fileLines (joinLines lines ++ last),
      NUL ∉ p ∧ fitsFields p ∧ tokens p ≠ [] := by
    intro p hp
    refine ⟨fileLines_no_NUL _ p hp, ?_⟩
    rw [hpieces] at hp
    rcases List.mem_append.1 hp with hp | hp
    · obtain ⟨l, hl, rfl⟩ := List.mem_map.1 hp
      exact ⟨(hlines l hl).2, tokens_ne_nil _ ⟨'\n', by simp, by decide⟩⟩
    · by_cases h : last = []
      · rw [if_pos h] at hp
        simp at hp
      · rw [if_neg h] at hp
        rcases hlast with hl | hl
        · exact absurd hl h
        · have : p = last := by simpa using hp
          subst this
          exact ⟨hl.2.1, hl.2.2⟩
  obtain ⟨trace, htrace, hkeys⟩ := insertions_keys (fileLines (joinLines lines ++ last))
    zeroFields rfl hall
  obtain ⟨fields', table', _, hload⟩ := loadLines_fits (fileLines (joinLines lines ++ last))
    zeroFields table rfl (fun p hp => (hall p hp).2.1)
  have hlink := loadLines_eq_insertions (fileLines (joinLines lines ++ last)) zeroFields table
  rw [hload, htrace] at hlink
  simp only [Run.andThen, Run.done.injEq] at hlink
  refine ⟨trace, htrace, ?_, ?_⟩
  · rw [LoadZipCodes_opened env filePath _ table hpath hopen, hload, ← hlink]
    rfl
  · rw [hkeys, hpieces, List.map_append, List.map_map]
    congr 1
    by_cases h : last = []
    · simp [h]
    · simp [h]

/-- C16 at a file of three lines with a newline, the second of them empty, and
a last line without one: four insertions, keyed 94040, 0, 10001 and 60601. -/
theorem LoadZipCodes_one_insertion_per_line_witness :
    (∃ trace, fileInsertions (joinLines ["94040,Mountain View,37.3861,-122.0839,CA".toList, [],
          "10001,New York".toList] ++ "60601,Chicago,41.88,-87.62,IL".toList) = .done trace ∧
      LoadZipCodes
          (Env.single "94040,Mountain View,37.3861,-122.0839,CA\n\n10001,New York\n60601,Chicago,41.88,-87.62,IL")
          "zips.csv".toList exampleTable =
        .done ((true, "Success".toList), applyInsertions trace exampleTable) ∧
      trace.map Prod.fst =
        ["94040,Mountain View,37.3861,-122.0839,CA".toList, [], "10001,New York".toList].map
            (fun l => lineKey (l ++ ['\n'])) ++
          (if "60601,Chicago,41.88,-87.62,IL".toList = [] then []
            else [lineKey "60601,Chicago,41.88,-87.62,IL".toList])) ∧
    ["94040,Mountain View,37.3861,-122.0839,CA".toList, [], "10001,New York".toList].map
        (fun l => lineKey (l ++ ['\n'])) ++ [lineKey "60601,Chicago,41.88,-87.62,IL".toList] =
      [94040, 0, 10001, 60601] :=
  ⟨LoadZipCodes_one_insertion_per_line
    (Env.single "94040,Mountain View,37.3861,-122.0839,CA\n\n10001,New York\n60601,Chicago,41.88,-87.62,IL")
    "zips.csv".toList exampleTable
    ["94040,Mountain View,37.3861,-122.0839,CA".toList, [], "10001,New York".toList]
    "60601,Chicago,41.88,-87.62,IL".toList (by decide) rfl (by decide) (Or.inr (by decide)),
   by decide⟩

set_option maxRecDepth 100000 in
/-- C16 as stated fails: the file is one line of 1031 bytes (its only newline
is its last byte) that starts with the postal code 7. fgets delivers it in two
pieces and the load makes two insertions, under 7 and under 5: the table,
empty before, has the two keys 5 and 7 afterwards. -/
theorem LoadZipCodes_one_insertion_per_line_counterexample :
    (longLineFile '5').count '\n' = 1 ∧ (longLineFile '5').getLast? = some '\n' ∧
    (longLineFile '5').take 8 = "7,a,1,2,".toList ∧
    fileInsertions (longLineFile '5') = .done [(7, ⟨1, 2⟩), (5, ⟨3, 4⟩)] ∧
    (LoadZipCodes (Env.ofFiles [("zips.csv".toList, longLineFile '5')]) "zips.csv".toList
        ZipMap.clear).andThen (fun r => .done (r.1, r.2.keys)) =
      .done ((true, "Success".toList), [5, 7]) := by
  decide

/-! ## Copies that stay in their row: C17 -/

theorem strcpy_done_iff (fields : Fields) (index : Nat) (field : List Char) :
    (∃ stored, strcpy fields index field = .done stored) ↔
      inOwnSlot (index, field.length + 1) := by
  unfold strcpy inOwnSlot
  constructor
  · rintro ⟨stored, h⟩
    split_ifs at h with h1 h2
    simp only
    omega
  · rintro ⟨h1, h2⟩
    simp only at h1 h2
    rw [if_pos (by omega), if_pos h2]
    exact ⟨_, rfl⟩

theorem fieldLoop_done_iff (fuel : Nat) :
    ∀ (pending : Option (List Char × List Char)) (index : Nat) (fields : Fields),
    (∀ t r, pending = some (t, r) → r.length < fuel) →
    ((∃ stored, fieldLoop fuel pending index fields = .done stored) ↔
      ∀ c ∈ fieldCopies fuel pending index, inOwnSlot c) := by
  induction fuel with
  | zero =>
    intro pending index fields hfuel
    cases pending with
    | none => simp [fieldLoop, fieldCopies]
    | some p => exact absurd (hfuel p.1 p.2 rfl) (Nat.not_lt_zero _)
  | succ fuel ih =>
    intro pending index fields hfuel
    cases pending with
    | none => simp [fieldLoop, fieldCopies]
    | some p =>
      obtain ⟨t, r⟩ := p
      have hnext : ∀ t' r', strtok ',' r = some (t', r') → r'.length < fuel := by
        intro t' r' h'
        have h1 := (strtok_some ',' r t' r' h').1
        have h2 := hfuel t r rfl
        omega
      simp only [fieldLoop, fieldCopies, List.mem_cons, forall_eq_or_imp]
      cases hc : strcpy fields index t with
      | done stored =>
        have hslot := (strcpy_done_iff fields index t).1 ⟨stored, hc⟩
        simp only [Run.andThen]
        rw [ih (strtok ',' r) (index + 1) stored hnext]
        exact ⟨fun h => ⟨hslot, h⟩, fun h => h.2⟩
      | fault f =>
        simp only [Run.andThen]
        constructor
        · rintro ⟨stored, h⟩
          cases h
        · rintro ⟨hslot, _⟩
          obtain ⟨stored, hs⟩ := (strcpy_done_iff fields index t).2 hslot
          rw [hs] at hc
          cases hc

theorem fieldCopies_inOwnSlot (fuel : Nat) :
    ∀ (pending : Option (List Char × List Char)) (index : Nat),
    index + (tokensFrom fuel pending).length ≤ 6 →
    (∀ t ∈ tokensFrom fuel pending, t.length ≤ 31) →
    ∀ c ∈ fieldCopies fuel pending index, inOwnSlot c := by
  induction fuel with
  | zero =>
    intro pending index _ _ c hc
    cases pending <;> simp [fieldCopies] at hc
  | succ fuel ih =>
    intro pending index hcap hshort c hc
    cases pending with
    | none => simp [fieldCopies] at hc
    | some p =>
      obtain ⟨t, r⟩ := p
      simp only [tokensFrom, List.length_cons] at hcap hshort
      simp only [fieldCopies, List.mem_cons] at hc
      rcases hc with rfl | hc
      · have := hshort t (List.mem_cons_self _ _)
        unfold inOwnSlot
        simp only
        omega
      · exact ih (strtok ',' r) (index + 1) (by omega)
          (fun t' h' => hshort t' (List.mem_cons_of_mem _ h')) c hc

/-- C17 (as amended): take an opened file in which every line, as fgets
delivers it, has at most 6 non-empty comma-separated fields, each at most 31
bytes long with the newline that stays on the last field of a line counted in.
Then every field copy of the load stays inside its own 32-byte row of the
6-row field buffer (the row index is below 6 and at most 32 bytes are stored,
the closing NUL included), for every line of the file, and the load returns. -/
theorem LoadZipCodes_copies_in_own_slot (env : Env) (filePath stream : List Char)
    (table : ZipMap) (hpath : filePath ≠ []) (hopen : env.fopen filePath = .ok stream)
    (hfits : ∀ l ∈ fileLines stream, (tokens l).length ≤ 6 ∧ ∀ t ∈ tokens l, t.length ≤ 31) :
    (∀ l ∈ fileLines stream, ∀ c ∈ lineCopies l, c.1 < 6 ∧ c.2 ≤ 32) ∧
    ∃ table', LoadZipCodes env filePath table = .done ((true, "Success".toList), table') := by
  refine ⟨?_, ?_⟩
  · intro l hl c hc
    have h := hfits l hl
    exact fieldCopies_inOwnSlot l.length (strtok ',' l) 0
      (by have := h.1; unfold tokens at this; omega)
      (by have := h.2; unfold tokens at this; exact this) c hc
  · obtain ⟨fields', table', _, hload⟩ := loadLines_fits (fileLines stream) zeroFields table rfl
      (fun l hl => ⟨(hfits l hl).1, fun t ht => Nat.lt_succ_of_le ((hfits l hl).2 t ht)⟩)
    exact ⟨table', by
      rw [LoadZipCodes_opened env filePath stream table hpath hopen, hload]
      rfl⟩

/-- C17 at a file of two lines, the second with six fields and a last field
of 30 bytes before its newline. -/
theorem LoadZipCodes_copies_in_own_slot_witness :
    (∀ l ∈ fileLines slotFile.toList, ∀ c ∈ lineCopies l, c.1 < 6 ∧ c.2 ≤ 32) ∧
    ∃ table', LoadZipCodes (Env.single slotFile) "zips.csv".toList exampleTable =
      .done ((true, "Success".toList), table') :=
  LoadZipCodes_copies_in_own_slot (Env.single slotFile) "zips.csv".toList slotFile.toList
    exampleTable (by decide) rfl (by decide)

/-- C17 as stated fails: the line has 74 bytes and five fields, the longest of
them, the last, 31 bytes long. As fgets delivers the line, the newline is on
the last field: the copy into row 4 stores 33 bytes, one more than the row
holds, and the load has no defined result. -/
theorem LoadZipCodes_copies_in_own_slot_counterexample :
    slotLine.toList.length < 1023 ∧ (tokens slotLine.toList).length ≤ 6 ∧
    (∀ t ∈ tokens slotLine.toList, t.length ≤ 31) ∧
    lineCopies (slotLine.toList ++ ['\n']) = [(0, 6), (1, 24), (2, 6), (3, 7), (4, 33)] ∧
    ¬ inOwnSlot (4, 33) ∧
    LoadZipCodes (Env.ofFiles [("zips.csv".toList, slotLine.toList ++ ['\n'])])
        "zips.csv".toList ZipMap.clear = .fault (.outsideRow 4 32) := by
  decide

/-! ## White space around the numbers: C15 -/

theorem dropWhile_space_append (lead rest : List Char) (hlead : allSpace lead)
    (hrest : ∀ c ∈ rest.head?, isspace c = false) :
    (lead ++ rest).dropWhile isspace = rest :=
  (takeWhile_append_stop isspace lead rest hlead hrest).2

theorem atoi_digits_padded (lead code trail : List Char) (hne : code ≠ [])
    (hdig : allDigits code) (hrange : decimalValue code < 2 ^ 31)
    (hlead : allSpace lead) (htrail : allSpace trail) :
    atoi (lead ++ code ++ trail) = decimalValue code := by
  obtain ⟨d, ds, rfl⟩ := List.exists_cons_of_ne_nil hne
  have hd := isdigit_not_sign d (hdig d (List.mem_cons_self _ _))
  have hdrop : (lead ++ (d :: ds) ++ trail).dropWhile isspace = d :: (ds ++ trail) := by
    rw [List.append_assoc]
    exact dropWhile_space_append lead _ hlead (by simp [hd.2.2])
  have hsign : takeSign (d :: (ds ++ trail)) = (false, d :: (ds ++ trail)) := by
    simp [takeSign, hd.1, hd.2.1]
  have htake : (d :: (ds ++ trail)).takeWhile isdigit = d :: ds := by
    have hstop : ∀ c ∈ trail.head?, isdigit c = false := fun c hc =>
      (isspace_stops c (htrail c (List.mem_of_mem_head? hc))).1
    have := (takeWhile_append_stop isdigit (d :: ds) trail hdig hstop).1
    simpa using this
  unfold atoi strtol toInt32
  rw [hdrop, hsign]
  simp only [htake]
  have h1 : min ((decimalValue (d :: ds) : Nat) : Int) (2 ^ 63 - 1) = decimalValue (d :: ds) := by
    apply min_eq_left
    have : ((decimalValue (d :: ds) : Nat) : Int) < 2 ^ 31 := by exact_mod_cast hrange
    omega
  simp only [Bool.false_eq_true, if_false, h1]
  have : ((decimalValue (d :: ds) : Nat) : Int) < 2 ^ 31 := by exact_mod_cast hrange
  omega

theorem extractDouble_congr (s1 s2 : List Char)
    (h : s1.dropWhile isspace = s2.dropWhile isspace) : extractDouble s1 = extractDouble s2 := by
  unfold extractDouble
  rw [h]

theorem decimalText_head (negative : Bool) (whole frac rest : List Char) (hw : whole ≠ [])
    (hwd : allDigits whole) :
    ∀ c ∈ (decimalText negative whole frac ++ rest).head?, isspace c = false := by
  obtain ⟨d, ds, rfl⟩ := List.exists_cons_of_ne_nil hw
  have hd := isdigit_not_sign d (hwd d (List.mem_cons_self _ _))
  intro c hc
  cases negative
  · simp only [decimalText, Bool.false_eq_true, if_false, List.nil_append, List.cons_append,
      List.head?_cons, Option.mem_def, Option.some.injEq] at hc
    subst hc
    exact hd.2.2
  · simp only [decimalText, if_true, List.cons_append, List.head?_cons, Option.mem_def,
      Option.some.injEq, List.singleton_append] at hc
    subst hc
    decide

theorem ConvertStringToDouble_padded (negative : Bool) (lead whole frac trail : List Char)
    (hw : whole ≠ []) (hwd : allDigits whole) (hfd : allDigits frac)
    (hlead : allSpace lead) (htrail : allSpace trail) :
    ConvertStringToDouble (lead ++ decimalText negative whole frac ++ trail) =
      nearestDouble (decimalNumber negative whole frac) := by
  have hhead := decimalText_head negative whole frac trail hw hwd
  have h1 : (lead ++ decimalText negative whole frac ++ trail).dropWhile isspace =
      (decimalText negative whole frac ++ trail).dropWhile isspace := by
    rw [List.append_assoc, dropWhile_space_append lead _ hlead hhead]
    have := dropWhile_space_append [] _ (by intro c hc; simp at hc) hhead
    simpa using this.symm
  unfold ConvertStringToDouble
  rw [extractDouble_congr _ _ h1,
    extractDouble_decimalText negative whole frac trail hw hwd hfd htrail]
  rfl

theorem plainField_padded (lead f trail : List Char) (hf : plainField f)
    (hlead : allSpace lead) (htrail : allSpace trail) : plainField (lead ++ f ++ trail) := by
  refine ⟨by simp [hf.1], ?_⟩
  intro h
  rcases List.mem_append.1 h with h | h
  · rcases List.mem_append.1 h with h | h
    · exact (isspace_stops ',' (hlead ',' h)).2.2.2.1 rfl
    · exact hf.2 h
  · exact (isspace_stops ',' (htrail ',' h)).2.2.2.1 rfl

theorem allSpace_append (a b : List Char) (ha : allSpace a) (hb : allSpace b) :
    allSpace (a ++ b) := by
  intro c hc
  rcases List.mem_append.1 hc with h | h
  · exact ha c h
  · exact hb c h

theorem paddedLine_record (code name : List Char) (latNeg lonNeg : Bool)
    (latWhole latFrac lonWhole lonFrac : List Char) (more : List (List Char))
    (codeLead codeTrail latLead latTrail lonLead lonTrail terminator : List Char)
    (hcode : code ≠ [] ∧ allDigits code ∧ decimalValue code < 2 ^ 31)
    (hname : plainField name)
    (hlat : latWhole ≠ [] ∧ allDigits latWhole ∧ allDigits latFrac)
    (hlon : lonWhole ≠ [] ∧ allDigits lonWhole ∧ allDigits lonFrac)
    (hmore : more.length ≤ 2 ∧ ∀ f ∈ more, plainField f)
    (hpads : allSpace codeLead ∧ allSpace codeTrail ∧ allSpace latLead ∧ allSpace latTrail ∧
      allSpace lonLead ∧ allSpace lonTrail ∧ allSpace terminator)
    (hshort : ∀ f ∈ (codeLead ++ code ++ codeTrail) :: name ::
      (latLead ++ decimalText latNeg latWhole latFrac ++ latTrail) ::
      (lonLead ++ decimalText lonNeg lonWhole lonFrac ++ lonTrail) :: more, f.length < 32)
    (hend : ((((codeLead ++ code ++ codeTrail) :: name ::
      (latLead ++ decimalText latNeg latWhole latFrac ++ latTrail) ::
      (lonLead ++ decimalText lonNeg lonWhole lonFrac ++ lonTrail) :: more).getLast?).getD
        []).length + terminator.length < 32) :
    fitsFields (joinFields ((codeLead ++ code ++ codeTrail) :: name ::
        (latLead ++ decimalText latNeg latWhole latFrac ++ latTrail) ::
        (lonLead ++ decimalText lonNeg lonWhole lonFrac ++ lonTrail) :: more) ++ terminator) ∧
    4 ≤ (tokens (joinFields ((codeLead ++ code ++ codeTrail) :: name ::
        (latLead ++ decimalText latNeg latWhole latFrac ++ latTrail) ::
        (lonLead ++ decimalText lonNeg lonWhole lonFrac ++ lonTrail) :: more) ++
        terminator)).length ∧
    lineKey (joinFields ((codeLead ++ code ++ codeTrail) :: name ::
        (latLead ++ decimalText latNeg latWhole latFrac ++ latTrail) ::
        (lonLead ++ decimalText lonNeg lonWhole lonFrac ++ lonTrail) :: more) ++ terminator) =
      decimalValue code ∧
    lineLatLon (joinFields ((codeLead ++ code ++ codeTrail) :: name ::
        (latLead ++ decimalText latNeg latWhole latFrac ++ latTrail) ::
        (lonLead ++ decimalText lonNeg lonWhole lonFrac ++ lonTrail) :: more) ++ terminator) =
      ⟨nearestDouble (decimalNumber latNeg latWhole latFrac),
        nearestDouble (decimalNumber lonNeg lonWhole lonFrac)⟩ := by
  obtain ⟨hcL, hcT, haL, haT, hoL, hoT, hterm⟩ := hpads
  have hplain : ∀ f ∈ (codeLead ++ code ++ codeTrail) :: name ::
      (latLead ++ decimalText latNeg latWhole latFrac ++ latTrail) ::
      (lonLead ++ decimalText lonNeg lonWhole lonFrac ++ lonTrail) :: more, plainField f := by
    intro f hf
    simp only [List.mem_cons] at hf
    rcases hf with rfl | rfl | rfl | rfl | hf
    · exact plainField_padded _ _ _ (plainField_digits _ hcode.1 hcode.2.1) hcL hcT
    · exact hname
    · exact plainField_padded _ _ _
        (plainField_decimalText _ _ _ hlat.1 hlat.2.1 hlat.2.2) haL haT
    · exact plainField_padded _ _ _
        (plainField_decimalText _ _ _ hlon.1 hlon.2.1 hlon.2.2) hoL hoT
    · exact hmore.2 f hf
  have htok := tokens_joinFields _ terminator hplain (by simp) hterm
  have hlen := withTerminator_length ((codeLead ++ code ++ codeTrail) :: name ::
      (latLead ++ decimalText latNeg latWhole latFrac ++ latTrail) ::
      (lonLead ++ decimalText lonNeg lonWhole lonFrac ++ lonTrail) :: more) terminator
  have hlatv := ConvertStringToDouble_padded latNeg latLead latWhole latFrac latTrail hlat.1
    hlat.2.1 hlat.2.2 haL haT
  refine ⟨⟨?_, ?_⟩, ?_, ?_, ?_⟩
  · rw [htok, hlen]
    simp only [List.length_cons]
    omega
  · rw [htok]
    exact withTerminator_fits _ terminator 32 hshort hend
  · rw [htok, hlen]
    simp only [List.length_cons]
    omega
  · unfold lineKey
    rw [htok]
    simp only [withTerminator, List.getD_cons_zero]
    exact atoi_digits_padded codeLead code codeTrail hcode.1 hcode.2.1 hcode.2.2 hcL hcT
  · unfold lineLatLon
    rw [htok]
    cases more with
    | nil =>
      simp only [withTerminator, List.getD_cons_succ, List.getD_cons_zero, hlatv]
      rw [List.append_assoc (lonLead ++ decimalText lonNeg lonWhole lonFrac) lonTrail terminator,
        ConvertStringToDouble_padded lonNeg lonLead lonWhole lonFrac (lonTrail ++ terminator)
          hlon.1 hlon.2.1 hlon.2.2 hoL (allSpace_append _ _ hoT hterm)]
    | cons g gs =>
      have hlonv := ConvertStringToDouble_padded lonNeg lonLead lonWhole lonFrac lonTrail hlon.1
        hlon.2.1 hlon.2.2 hoL hoT
      simp only [withTerminator, List.getD_cons_succ, List.getD_cons_zero, hlatv, hlonv]

theorem mem_joinFields (fs : List (List Char)) (c : Char) (h : c ∈ joinFields fs) :
    c = ',' ∨ ∃ f ∈ fs, c ∈ f := by
  induction fs with
  | nil => simp [joinFields] at h
  | cons f rest ih =>
    cases rest with
    | nil => exact Or.inr ⟨f, List.mem_cons_self _ _, by simpa [joinFields] using h⟩
    | cons g gs =>
      simp only [joinFields, List.mem_append, List.mem_cons] at h
      rcases h with h | h | h
      · exact Or.inr ⟨f, List.mem_cons_self _ _, h⟩
      · exact Or.inl h
      · rcases ih h with h' | ⟨x, hx, hc⟩
        · exact Or.inl h'
        · exact Or.inr ⟨x, List.mem_cons_of_mem _ hx, hc⟩

theorem NUL_not_mem_space (s : List Char) (h : allSpace s) : NUL ∉ s :=
  fun hm => (isspace_stops NUL (h NUL hm)).2.2.2.2 rfl

theorem NUL_not_mem_digits (s : List Char) (h : allDigits s) : NUL ∉ s := by
  intro hm
  have := h NUL hm
  revert this
  decide

theorem NUL_not_mem_decimalText (negative : Bool) (whole frac : List Char)
    (hwd : allDigits whole) (hfd : allDigits frac) : NUL ∉ decimalText negative whole frac := by
  intro h
  unfold decimalText at h
  rcases List.mem_append.1 h with h | h
  · rcases List.mem_append.1 h with h | h
    · cases negative
      · simp at h
      · simp only [if_true, List.mem_singleton] at h
        revert h
        decide
    · exact NUL_not_mem_digits whole hwd h
  · cases frac with
    | nil => simp at h
    | cons f fs =>
      simp only [List.isEmpty_cons, Bool.false_eq_true, if_false, List.mem_cons] at h
      rcases h with h | h
      · revert h; decide
      · exact NUL_not_mem_digits (f :: fs) hfd (by simpa using h)

/-- The lines that follow see of the field buffer only the numbers rows 0, 2
and 3 convert to: from two buffers that agree on them, the same lines lead to
the same table. -/
theorem loadLines_same_numbers (lines : List (List Char)) :
    ∀ (fields1 fields2 : Fields) (table : ZipMap), fields1.length = 6 → fields2.length = 6 →
    (∀ l ∈ lines, NUL ∉ l ∧ fitsFields l) →
    atoi (fieldAt fields1 0) = atoi (fieldAt fields2 0) →
    ConvertStringToDouble (fieldAt fields1 2) = ConvertStringToDouble (fieldAt fields2 2) →
    ConvertStringToDouble (fieldAt fields1 3) = ConvertStringToDouble (fieldAt fields2 3) →
    ∃ rows1 rows2 table', loadLines lines fields1 table = .done (rows1, table') ∧
      loadLines lines fields2 table = .done (rows2, table') := by
  induction lines with
  | nil =>
    intro fields1 fields2 table _ _ _ _ _ _
    exact ⟨fields1, fields2, table, rfl, rfl⟩
  | cons l rest ih =>
    intro fields1 fields2 table hlen1 hlen2 h h0 h2 h3
    obtain ⟨hnul, hfit⟩ := h l (List.mem_cons_self _ _)
    have hstep1 := processLine_eq l fields1 table hfit
    have hstep2 := processLine_eq l fields2 table hfit
    have hat1 := fun i => fieldAt_storeAll (tokens l) 0 fields1 i hlen1
      (by have := hfit.1; omega) (tokens_no_NUL l hnul)
    have hat2 := fun i => fieldAt_storeAll (tokens l) 0 fields2 i hlen2
      (by have := hfit.1; omega) (tokens_no_NUL l hnul)
    have e0 : atoi (fieldAt (storeAll (tokens l) 0 fields1) 0) =
        atoi (fieldAt (storeAll (tokens l) 0 fields2) 0) := by
      rw [hat1 0, hat2 0]
      split_ifs
      · rfl
      · exact h0
    have e2 : ConvertStringToDouble (fieldAt (storeAll (tokens l) 0 fields1) 2) =
        ConvertStringToDouble (fieldAt (storeAll (tokens l) 0 fields2) 2) := by
      rw [hat1 2, hat2 2]
      split_ifs
      · rfl
      · exact h2
    have e3 : ConvertStringToDouble (fieldAt (storeAll (tokens l) 0 fields1) 3) =
        ConvertStringToDouble (fieldAt (storeAll (tokens l) 0 fields2) 3) := by
      rw [hat1 3, hat2 3]
      split_ifs
      · rfl
      · exact h3
    obtain ⟨rows1, rows2, table', hr1, hr2⟩ := ih (storeAll (tokens l) 0 fields1)
      (storeAll (tokens l) 0 fields2)
      (table.assign (atoi (fieldAt (storeAll (tokens l) 0 fields1) 0))
        ⟨ConvertStringToDouble (fieldAt (storeAll (tokens l) 0 fields1) 2),
         ConvertStringToDouble (fieldAt (storeAll (tokens l) 0 fields1) 3)⟩)
      (by rw [storeAll_length]; exact hlen1) (by rw [storeAll_length]; exact hlen2)
      (fun l' h' => h l' (List.mem_cons_of_mem _ h')) e0 e2 e3
    refine ⟨rows1, rows2, table', ?_, ?_⟩
    · simp only [loadLines, hstep1, Run.andThen, hr1]
    · simp only [loadLines, hstep2, Run.andThen, ← e0, ← e2, ← e3, hr2]

theorem allSpace_blanks (s : List Char) (h : ∀ c ∈ s, c = ' ') : allSpace s := by
  intro c hc
  rw [h c hc]
  rfl

/-- Spaces around the numbers of a line change nothing. Take two opened files
whose delivered lines are the same but for one line: "code,name,lat,lon" with
at most two further fields in the first file, and in the second the same line
with spaces before and after the postal code, the latitude and the longitude.
When every delivered line fits the field buffer (at most six fields, each
shorter than 32 bytes with the line end on the last one counted), both loads
succeed and leave the same table. -/
theorem LoadZipCodes_padding_irrelevant (env : Env)
    (pathPlain pathPadded streamPlain streamPadded : List Char) (table : ZipMap)
    (pre post : List (List Char)) (code name : List Char) (latNeg lonNeg : Bool)
    (latWhole latFrac lonWhole lonFrac : List Char) (more : List (List Char))
    (codeLead codeTrail latLead latTrail lonLead lonTrail endPlain endPadded : List Char)
    (hpathPlain : pathPlain ≠ []) (hopenPlain : env.fopen pathPlain = .ok streamPlain)
    (hpathPadded : pathPadded ≠ []) (hopenPadded : env.fopen pathPadded = .ok streamPadded)
    (hlinesPlain : fileLines streamPlain = pre ++
      (joinFields (code :: name :: decimalText latNeg latWhole latFrac ::
        decimalText lonNeg lonWhole lonFrac :: more) ++ endPlain) :: post)
    (hlinesPadded : fileLines streamPadded = pre ++
      (joinFields ((codeLead ++ code ++ codeTrail) :: name ::
        (latLead ++ decimalText latNeg latWhole latFrac ++ latTrail) ::
        (lonLead ++ decimalText lonNeg lonWhole lonFrac ++ lonTrail) :: more) ++ endPadded) ::
        post)
    (hothers : ∀ l ∈ pre ++ post, fitsFields l)
    (hcode : code ≠ [] ∧ allDigits code ∧ decimalValue code < 2 ^ 31)
    (hname : plainField name)
    (hlat : latWhole ≠ [] ∧ allDigits latWhole ∧ allDigits latFrac)
    (hlon : lonWhole ≠ [] ∧ allDigits lonWhole ∧ allDigits lonFrac)
    (hmore : more.length ≤ 2 ∧ ∀ f ∈ more, plainField f)
    (hpads : ∀ pad ∈ [codeLead, codeTrail, latLead, latTrail, lonLead, lonTrail],
      ∀ c ∈ pad, c = ' ')
    (hends : allSpace endPlain ∧ allSpace endPadded)
    (hshortPlain : ∀ f ∈ code :: name :: decimalText latNeg latWhole latFrac ::
      decimalText lonNeg lonWhole lonFrac :: more, f.length < 32)
    (hendPlain : (((code :: name :: decimalText latNeg latWhole latFrac ::
      decimalText lonNeg lonWhole lonFrac :: more).getLast?).getD []).length +
        endPlain.length < 32)
    (hshortPadded : ∀ f ∈ (codeLead ++ code ++ codeTrail) :: name ::
      (latLead ++ decimalText latNeg latWhole latFrac ++ latTrail) ::
      (lonLead ++ decimalText lonNeg lonWhole lonFrac ++ lonTrail) :: more, f.length < 32)
    (hendPadded : ((((codeLead ++ code ++ codeTrail) :: name ::
      (latLead ++ decimalText latNeg latWhole latFrac ++ latTrail) ::
      (lonLead ++ decimalText lonNeg lonWhole lonFrac ++ lonTrail) :: more).getLast?).getD
        []).length + endPadded.length < 32) :
    ∃ table', LoadZipCodes env pathPlain table = .done ((true, "Success".toList), table') ∧
      LoadZipCodes env pathPadded table = .done ((true, "Success".toList), table') := by
  have hblank : ∀ pad ∈ [codeLead, codeTrail, latLead, latTrail, lonLead, lonTrail],
      allSpace pad := fun pad hp => allSpace_blanks pad (hpads pad hp)
  obtain ⟨hfitA, hfourA, hkeyA, hrecA⟩ := wellFormedLine_record code name latNeg lonNeg latWhole
    latFrac lonWhole lonFrac more endPlain hcode hname hlat hlon hmore hends.1 hshortPlain
    hendPlain
  obtain ⟨hfitB, hfourB, hkeyB, hrecB⟩ := paddedLine_record code name latNeg lonNeg latWhole
    latFrac lonWhole lonFrac more codeLead codeTrail latLead latTrail lonLead lonTrail endPadded
    hcode hname hlat hlon hmore
    ⟨hblank _ (by simp), hblank _ (by simp), hblank _ (by simp), hblank _ (by simp),
      hblank _ (by simp), hblank _ (by simp), hends.2⟩ hshortPadded hendPadded
  have hnulA := fileLines_no_NUL streamPlain
  rw [hlinesPlain] at hnulA
  have hnulB := fileLines_no_NUL streamPadded
  rw [hlinesPadded] at hnulB
  generalize joinFields (code :: name :: decimalText latNeg latWhole latFrac ::
    decimalText lonNeg lonWhole lonFrac :: more) ++ endPlain = lineA at *
  generalize joinFields ((codeLead ++ code ++ codeTrail) :: name ::
    (latLead ++ decimalText latNeg latWhole latFrac ++ latTrail) ::
    (lonLead ++ decimalText lonNeg lonWhole lonFrac ++ lonTrail) :: more) ++ endPadded =
    lineB at *
  obtain ⟨fields0, table0, hlen0, hload0⟩ := loadLines_fits pre zeroFields table rfl
    (fun l hl => hothers l (List.mem_append_left _ hl))
  have hstepA := processLine_full lineA fields0 table0 hlen0 (hnulA _ (by simp)) hfitA hfourA
  have hstepB := processLine_full lineB fields0 table0 hlen0 (hnulB _ (by simp)) hfitB hfourB
  have hatA : ∀ i, i < 4 →
      fieldAt (storeAll (tokens lineA) 0 fields0) i = (tokens lineA).getD i [] := by
    intro i hi
    rw [fieldAt_storeAll _ 0 fields0 i hlen0 (by have := hfitA.1; omega)
      (tokens_no_NUL _ (hnulA _ (by simp))), if_pos (by omega)]
    rfl
  have hatB : ∀ i, i < 4 →
      fieldAt (storeAll (tokens lineB) 0 fields0) i = (tokens lineB).getD i [] := by
    intro i hi
    rw [fieldAt_storeAll _ 0 fields0 i hlen0 (by have := hfitB.1; omega)
      (tokens_no_NUL _ (hnulB _ (by simp))), if_pos (by omega)]
    rfl
  have hrec : lineLatLon lineA = lineLatLon lineB := by rw [hrecA, hrecB]
  obtain ⟨rows1, rows2, table', hr1, hr2⟩ := loadLines_same_numbers post
    (storeAll (tokens lineA) 0 fields0) (storeAll (tokens lineB) 0 fields0)
    (table0.assign (lineKey lineA) (lineLatLon lineA))
    (by rw [storeAll_length]; exact hlen0) (by rw [storeAll_length]; exact hlen0)
    (fun l hl => ⟨hnulA l (by simp [hl]), hothers l (List.mem_append_right _ hl)⟩)
    (by rw [hatA 0 (by omega), hatB 0 (by omega)]
        show lineKey lineA = lineKey lineB
        rw [hkeyA, hkeyB])
    (by rw [hatA 2 (by omega), hatB 2 (by omega)]
        exact congrArg LatLon.lat hrec)
    (by rw [hatA 3 (by omega), hatB 3 (by omega)]
        exact congrArg LatLon.lon hrec)
  refine ⟨table', ?_, ?_⟩
  · rw [LoadZipCodes_opened env pathPlain streamPlain table hpathPlain hopenPlain, hlinesPlain,
      loadLines_append, hload0]
    simp only [Run.andThen, loadLines, hstepA, hr1]
  · rw [LoadZipCodes_opened env pathPadded streamPadded table hpathPadded hopenPadded,
      hlinesPadded, loadLines_append, hload0]
    have hkey : lineKey lineB = lineKey lineA := hkeyB.trans hkeyA.symm
    simp only [Run.andThen, loadLines, hstepB, hkey, ← hrec, hr2]

end ZipCodes
